import Mathlib

/-!
# Verification of the PlanMaker group scheduler (src/logic.py)

This file shallowly embeds the core logic of `GroupScheduler`:

* the time model (`parse_time`, `slot_to_str`, `str_to_slot`),
* candidate-slot generation (`generate_slots`, `build_participant_slots`),
* the wait-cost function (`compute_wait_minutes`),
* the flow-based assignment engine with its repair loop (`assign_groups`).

Modelling conventions:

* Python strings are modelled as `List Char` (`Str`); Python ints as `Int`.
  Python's `//` and `%` on ints (floor division with nonnegative remainder
  for a positive divisor) are `Int.ediv` / `Int.emod`.
* Python dicts are association lists that preserve insertion order and whose
  update (`alSet`) overwrites an existing key in place, like a dict.
* Python `set` objects are duplicate-free lists; only their membership is
  ever relevant to the properties proved here.
* A raised exception is `Option.none` (or `PyRes.exn` inside the engine);
  the `while` loops are given explicit fuel, with `PyRes.fuelOut` marking
  fuel exhaustion, i.e. an execution longer than the given bound.
* `int(s)` is modelled for optionally signed decimal strings with optional
  surrounding whitespace (Python's underscore digit separators are not
  modelled; no input produced by the program contains them).
* The external networkx calls `maximum_flow_value` and `min_cost_flow` are
  oracles passed as arguments (`maxF`, `mcf`), exactly the narrow interface
  the design describes for them.  Their contract — the returned flow is an
  integral feasible flow of the demanded value on the constructed network —
  is the predicate `FeasibleF` / `SolverOK` below.
-/

namespace PlanMaker

abbrev Str := List Char

/-- A slot `(day, start_min, end_min)`, as in `Slot = Tuple[str, int, int]`. -/
abbrev Slot := Str × Int × Int

/-- ASCII whitespace test used by `str.strip()` / `int()` (the inputs in this
program are ASCII). -/
def isWS (c : Char) : Bool :=
  c = ' ' ∨ c = '\t' ∨ c = '\n' ∨ c = '\r'

/-- `s.strip()`: drop whitespace from both ends. -/
def pyStrip (s : Str) : Str :=
  ((s.dropWhile isWS).reverse.dropWhile isWS).reverse

/-- `s.split(sep)` for a single-character separator: split at every
occurrence, keeping empty pieces. -/
def pySplit (sep : Char) : Str → List Str
  | [] => [[]]
  | c :: cs =>
    if c = sep then [] :: pySplit sep cs
    else
      match pySplit sep cs with
      | [] => [[c]]
      | r :: rs => (c :: r) :: rs

/-- `s.split(sep, 1)` when it yields two pieces: split at the first
occurrence of `sep`; `none` if `sep` does not occur (in the source this
makes the two-variable unpacking raise). -/
def splitFirst (sep : Char) : Str → Option (Str × Str)
  | [] => none
  | c :: cs =>
    if c = sep then some ([], cs)
    else (splitFirst sep cs).map (fun p => (c :: p.1, p.2))

/-- Decimal digit value of a character. -/
def digitVal (c : Char) : Option Nat :=
  if '0' ≤ c ∧ c ≤ '9' then some (c.toNat - 48) else none

/-- Fold a digit string onto an accumulator; `none` on a non-digit. -/
def valAux (v : Nat) : Str → Option Nat
  | [] => some v
  | c :: cs =>
    match digitVal c with
    | some d => valAux (10 * v + d) cs
    | none => none

/-- Value of a nonempty digit string. -/
def digitsVal : Str → Option Nat
  | [] => none
  | c :: cs => valAux 0 (c :: cs)

/-- Python `int(s)` on decimal strings: optional surrounding whitespace,
optional single sign, then a nonempty run of digits. -/
def pyInt (s : Str) : Option Int :=
  match pyStrip s with
  | [] => none
  | c :: rest =>
    if c = '-' then (digitsVal rest).map (fun n => -(n : Int))
    else if c = '+' then (digitsVal rest).map (fun n => (n : Int))
    else (digitsVal (c :: rest)).map (fun n => (n : Int))

/-- Decimal digits of a natural number, most significant first, prepended to
`acc`.  Structural recursion on explicit fuel so that the kernel can
evaluate it; `n + 1` fuel always suffices since `n / 10 < n` for `n ≥ 10`. -/
def digitsAux : Nat → Nat → Str → Str
  | 0, _, acc => acc
  | fuel + 1, n, acc =>
    if n < 10 then Char.ofNat (48 + n) :: acc
    else digitsAux fuel (n / 10) (Char.ofNat (48 + n % 10) :: acc)

/-- Decimal representation of a natural number. -/
def natDigits (n : Nat) : Str := digitsAux (n + 1) n []

/-- Python `str(n)` for an int. -/
def intStr (n : Int) : Str :=
  if n < 0 then '-' :: natDigits n.natAbs else natDigits n.toNat

/-- Python `f"{n:02d}"`: pad with one leading `'0'` to width 2 (a negative
int already has width ≥ 2, so the sign-aware padding never fires there). -/
def pad2 (n : Int) : Str :=
  let s := intStr n
  if s.length < 2 then '0' :: s else s

/-- `parse_time`: `h, m = map(int, t.strip().split(":"))`; `60*h + m`.
Any failure (not exactly two fields, or a non-integer field) raises. -/
def parse_time (t : Str) : Option Int :=
  match pySplit ':' (pyStrip t) with
  | [h, m] => do
    let hv ← pyInt h
    let mv ← pyInt m
    pure (60 * hv + mv)
  | _ => none

/-- `slot_to_str`: `f"{day} {s//60:02d}:{s%60:02d}-{e//60:02d}:{e%60:02d}"`. -/
def slot_to_str (slot : Slot) : Str :=
  let (day, s, e) := slot
  day ++ ' ' ::
    (pad2 (Int.ediv s 60) ++ ':' :: pad2 (Int.emod s 60) ++
      '-' :: pad2 (Int.ediv e 60) ++ ':' :: pad2 (Int.emod e 60))

/-- `str_to_slot`: split off the day at the first space, split the rest at
`"-"` into exactly two clock strings, parse each as `HH:MM`. -/
def str_to_slot (s : Str) : Option Slot := do
  let (day, times) ← splitFirst ' ' s
  match pySplit '-' times with
  | [t1, t2] =>
    match pySplit ':' t1, pySplit ':' t2 with
    | [a, b], [c, d] => do
      let sh ← pyInt a
      let sm ← pyInt b
      let eh ← pyInt c
      let em ← pyInt d
      pure (day, sh * 60 + sm, eh * 60 + em)
    | _, _ => none
  | _ => none

/-- Dict lookup `d.get(k)`: first (and, for states built by the program,
only) binding of `k`. -/
def alGet {α : Type} (k : Str) : List (Str × α) → Option α
  | [] => none
  | (k', v) :: rest => if k' = k then some v else alGet k rest

/-- Dict update `d[k] = v`: overwrite in place if present, else append —
the insertion-order semantics of a Python dict. -/
def alSet {α : Type} (k : Str) (v : α) : List (Str × α) → List (Str × α)
  | [] => [(k, v)]
  | (k', v') :: rest =>
    if k' = k then (k, v) :: rest else (k', v') :: alSet k v rest

/-- The constructor parameters of `GroupScheduler` that the core logic
reads. -/
structure Config where
  earliest_hour : Str
  latest_hour : Str
  slot_len : Int
  step : Int
  min_size : Int
  max_size : Int

deriving DecidableEq

/-- `GroupScheduler.LARGE_PENALTY = 10**6`. -/
def LARGE_PENALTY : Int := 10 ^ 6

/-- The mutable fields of `GroupScheduler` that `assign_groups` reads:
`participant_slots` (person → candidate slots) and `class_times`
(person → day → fixed-commitment interval). -/
structure SchedState where
  participant_slots : List (Str × List Slot)
  class_times : List (Str × List (Str × Int × Int))

deriving DecidableEq

/-- Body of the `while t + slot_len <= end_min` loop of `generate_slots`,
with explicit fuel.  For `0 < step` the fuel computed by `genFuel` is at
least the number of iterations, so the produced list is exactly the loop's
output; for `step ≤ 0` the Python loop does not terminate whenever it has
a first iteration, and no theorem below concerns that case. -/
def genAux (day : Str) (L S endm : Int) : Nat → Int → List Slot
  | 0, _ => []
  | fuel + 1, t =>
    if t + L ≤ endm then (day, t, t + L) :: genAux day L S endm fuel (t + S)
    else []

/-- Fuel bound for `genAux`: for `S ≥ 1` the loop runs at most
`end − L − t0 + S` times from `t0`. -/
def genFuel (L S endm t0 : Int) : Nat := (endm - L - t0 + S).toNat + 1

/-- `generate_slots(day, start_min, end_min)`: slots of length `slot_len`
starting at `max(start_min, parse_time(earliest_hour))`, stepping by
`step`, each ending at or before `end_min`. -/
def generate_slots (cfg : Config) (day : Str) (start_min end_min : Int) :
    Option (List Slot) := do
  let em ← parse_time cfg.earliest_hour
  let t0 := max start_min em
  pure (genAux day cfg.slot_len cfg.step end_min
    (genFuel cfg.slot_len cfg.step end_min t0) t0)

/-- The two `generate_slots` calls of the per-day body of
`build_participant_slots` (lines 97–104): slots before the commitment when
`class_start > earliest_min`, slots after it when `class_end < latest_min`. -/
def daySlots (cfg : Config) (em lm : Int) (day : Str) (cs ce : Int) :
    Option (List Slot) :=
  (if em < cs then generate_slots cfg day em cs else pure []).bind fun before =>
    (if ce < lm then generate_slots cfg day ce lm else pure []).bind fun after =>
      pure (before ++ after)

/-- The per-day loop of `build_participant_slots` over one person's
schedule row: skip blank ranges, split `"start-end"`, parse both ends,
record `(day, class_start, class_end)` and generate that day's candidate
slots. -/
def processDays (cfg : Config) (em lm : Int) :
    List (Str × Str) → Option (List (Str × Int × Int) × List Slot)
  | [] => some ([], [])
  | (day, rng) :: rest =>
    if pyStrip rng = [] then processDays cfg em lm rest
    else
      match pySplit '-' rng with
      | [s1, s2] => do
        let cs ← parse_time s1
        let ce ← parse_time s2
        let ds ← daySlots cfg em lm day cs ce
        let (cts, slots) ← processDays cfg em lm rest
        pure ((day, cs, ce) :: cts, ds ++ slots)
      | _ => none

/-- One iteration of the roster loop of `build_participant_slots`: the
person's key is `f"{Imię} {Nazwisko} {Klasa}"`; a class absent from the
schedule leaves the person with no slots and no commitments. -/
def buildPerson (cfg : Config) (em lm : Int)
    (schedule : List (Str × List (Str × Str))) (st : SchedState)
    (row : Str × Str × Str) : Option SchedState :=
  let name := row.1 ++ ' ' :: row.2.1 ++ ' ' :: row.2.2
  let st1 : SchedState :=
    ⟨alSet name [] st.participant_slots, alSet name [] st.class_times⟩
  match alGet row.2.2 schedule with
  | none => some st1
  | some days => do
    let (cts, slots) ← processDays cfg em lm days
    pure ⟨alSet name slots st1.participant_slots,
          alSet name cts st1.class_times⟩

/-- `build_participant_slots`, with the resolved schedule
(class → day → `"HH:MM-HH:MM"`) and roster (Imię, Nazwisko, Klasa) as
inputs; blank/NaN range cells are the `pyStrip rng = []` case of
`processDays`. -/
def build_participant_slots (cfg : Config)
    (schedule : List (Str × List (Str × Str)))
    (roster : List (Str × Str × Str)) : Option SchedState := do
  let em ← parse_time cfg.earliest_hour
  let lm ← parse_time cfg.latest_hour
  roster.foldlM (buildPerson cfg em lm schedule) ⟨[], []⟩

/-- The tag in the pair returned by `compute_wait_minutes`
(`"before"` / `"after"` / `"conflict"` in the source). -/
inductive WTag : Type
  | before
  | after
  | conflict

deriving DecidableEq

/-- Return value of `compute_wait_minutes`: either the bare int `0`
(person has no commitment that day — note this is not a pair) or a
`(wait, tag)` pair. -/
inductive WaitRet : Type
  | bare (n : Int)
  | pair (w : Int) (tag : WTag)

deriving DecidableEq

/-- `compute_wait_minutes(person, slot)`. -/
def compute_wait_minutes (st : SchedState) (person : Str) (slot : Slot) :
    WaitRet :=
  match alGet person st.class_times with
  | none => .bare 0
  | some times =>
    match alGet slot.1 times with
    | none => .bare 0
    | some (cs, ce) =>
      if slot.2.2 ≤ cs then .pair (cs - slot.2.2) .before
      else if ce ≤ slot.2.1 then .pair (slot.2.1 - ce) .after
      else .pair LARGE_PENALTY .conflict

/-- `slot_to_candidates.setdefault(slot, set()).add(person)`. -/
def addCand (slot : Slot) (p : Str) :
    List (Slot × List Str) → List (Slot × List Str)
  | [] => [(slot, [p])]
  | (s, ps) :: rest =>
    if s = slot then (s, if p ∈ ps then ps else ps ++ [p]) :: rest
    else (s, ps) :: addCand slot p rest

/-- Inner loop of the pool construction: add one person for each of their
slots. -/
def addSlots (p : Str) : List Slot → List (Slot × List Str) →
    List (Slot × List Str)
  | [], acc => acc
  | s :: ss, acc => addSlots p ss (addCand s p acc)

/-- Outer loop of the pool construction over `participant_slots.items()`. -/
def stcAux : List (Str × List Slot) → List (Slot × List Str) →
    List (Slot × List Str)
  | [], acc => acc
  | (p, slots) :: rest, acc => stcAux rest (addSlots p slots acc)

/-- The `slot_to_candidates` map of `assign_groups` (lines 122–125). -/
def slot_to_candidates (pslots : List (Str × List Slot)) :
    List (Slot × List Str) :=
  stcAux pslots []

/-- `candidate_slots`: keep slots whose eligible set has at least
`min_size` members (line 127). -/
def candidateSlots (pslots : List (Str × List Slot)) (minSize : Int) :
    List (Slot × List Str) :=
  (slot_to_candidates pslots).filter (fun e => minSize ≤ (e.2.length : Int))

/-- The person→slot edges contributed by one slot's candidate set. -/
def candEdges (st : SchedState) (slot : Slot) :
    List Str → Option (List (Str × Slot))
  | [] => some []
  | p :: ps =>
    match compute_wait_minutes st p slot with
    | .bare _ => none
    | .pair w _ =>
      (candEdges st slot ps).map
        (fun rest => if w < LARGE_PENALTY then (p, slot) :: rest else rest)

/-- All person→slot edges of the flow networks built from a pool. -/
def poolEdges (st : SchedState) :
    List (Slot × List Str) → Option (List (Str × Slot))
  | [] => some []
  | e :: rest => do
    let l1 ← candEdges st e.1 e.2
    let l2 ← poolEdges st rest
    pure (l1 ++ l2)

/-- The graph nodes are slot *strings*; an edge `person → slot_node` exists
when some pool slot with that string has the edge. -/
def hasEdge (edges : List (Str × Slot)) (p sn : Str) : Bool :=
  edges.any (fun e => decide (e.1 = p ∧ slot_to_str e.2 = sn))

/-- The participant list (`list(self.participant_slots.keys())`). -/
def partsOf (st : SchedState) : List Str :=
  st.participant_slots.map Prod.fst

/-- The slot-node strings of a pool (each pool slot is one graph node,
keyed by its string). -/
def snsOf (pool : List (Slot × List Str)) : List Str :=
  (pool.map (fun e => slot_to_str e.1)).dedup

/-- `slot_members[sn]`: the participants, in participant order, with
positive flow on an edge into `sn` (lines 181–187). -/
def membersOf (parts : List Str) (edges : List (Str × Slot))
    (f : Str → Str → Nat) (sn : Str) : List Str :=
  parts.filter (fun p => hasEdge edges p sn && decide (0 < f p sn))

/-- `slot_counts[sn]`: total flow into slot node `sn`. -/
def colSum (parts : List Str) (edges : List (Str × Slot))
    (f : Str → Str → Nat) (sn : Str) : Nat :=
  ((parts.filter (fun p => hasEdge edges p sn)).map (fun p => f p sn)).sum

/-- Total flow out of person `p` (over all slot nodes). -/
def rowSum (sns : List Str) (edges : List (Str × Slot))
    (f : Str → Str → Nat) (p : Str) : Nat :=
  ((sns.filter (fun sn => hasEdge edges p sn)).map (fun sn => f p sn)).sum

/-- Python `a < b` on strings: lexicographic comparison by code point. -/
def lexLt : Str → Str → Bool
  | [], [] => false
  | [], _ :: _ => true
  | _ :: _, [] => false
  | a :: xs, b :: ys => if a = b then lexLt xs ys else decide (a < b)

/-- Insertion step of `sorted(final.items(), key=lambda x: x[0])`. -/
def insSorted (x : Str × List Str) :
    List (Str × List Str) → List (Str × List Str)
  | [] => [x]
  | y :: ys => if lexLt x.1 y.1 then x :: y :: ys else y :: insSorted x ys

/-- `sorted(final.items(), key=lambda x: x[0])`. -/
def sortFinal (l : List (Str × List Str)) : List (Str × List Str) :=
  l.foldr insSorted []

/-- The slot nodes carrying positive flow (the keys of `slot_counts`). -/
def activeOf (parts : List Str) (edges : List (Str × Slot))
    (f : Str → Str → Nat) (sns : List Str) : List Str :=
  sns.filter (fun sn => decide (0 < colSum parts edges f sn))

/-- `slots_to_remove`: flow-carrying slot nodes under `min_size`
(line 189). -/
def removeOf (parts : List Str) (edges : List (Str × Slot))
    (f : Str → Str → Nat) (sns : List Str) (minSize : Int) : List Str :=
  (activeOf parts edges f sns).filter
    (fun sn => decide ((colSum parts edges f sn : Int) < minSize))

/-- The returned mapping on success: flow-carrying slots whose member list
reaches `min_size`, sorted by slot string (lines 190–192). -/
def finalOf (parts : List Str) (edges : List (Str × Slot))
    (f : Str → Str → Nat) (sns : List Str) (minSize : Int) :
    List (Str × List Str) :=
  sortFinal (((activeOf parts edges f sns).filter
      (fun sn => decide (minSize ≤ ((membersOf parts edges f sn).length : Int)))).map
    (fun sn => (sn, membersOf parts edges f sn)))

/-- Which of the three `return {}` sites (or the success return) produced
the result; instrumentation only, projected away by `assign_groups`. -/
inductive ExitKind : Type
  | noCandidates
  | flowZero
  | exhausted
  | solved

deriving DecidableEq

/-- Outcome of one `while True` iteration of `assign_groups`. -/
inductive StepRes : Type
  | done (m : List (Str × List Str)) (k : ExitKind)
  | fail
  | next (pool : List (Slot × List Str))

deriving DecidableEq

/-- One iteration of the repair loop (lines 133–201): build the networks,
return `{}` if the max-flow value is 0, otherwise extract the min-cost
flow, return the filtered mapping if no slot is under `min_size`, else
remove the under-filled slots (parsing each slot string back to its key)
and continue, returning `{}` if the pool empties.

This abstraction separates the graph nodes by role (persons, slot
strings, source, sink).  The real `nx.DiGraph` keys every node by its
string, so the role separation is faithful exactly when participant
names, the pool's slot strings, `"S"` and `"T"` are pairwise distinct.
The `rtPool` hypothesis of the exit analysis below implies this (a
round-tripping slot string has exactly one space, a roster name at least
two), and the concrete scenarios used with `stepFn` all satisfy it by
inspection.  Executions with a merged person/slot node fall outside this
scope and are modelled exactly by the string-keyed `nxStepFn` below. -/
def stepFn (st : SchedState) (cfg : Config)
    (maxF : List (Slot × List Str) → Nat)
    (mcf : List (Slot × List Str) → Nat → Str → Str → Nat)
    (pool : List (Slot × List Str)) : StepRes :=
  match poolEdges st pool with
  | none => .fail
  | some edges =>
    let F := maxF pool
    if F = 0 then .done [] .flowZero
    else
      let f := mcf pool F
      let parts := partsOf st
      let sns := snsOf pool
      if (removeOf parts edges f sns cfg.min_size).isEmpty then
        .done (finalOf parts edges f sns cfg.min_size) .solved
      else
        match (removeOf parts edges f sns cfg.min_size).mapM str_to_slot with
        | none => .fail
        | some removed =>
          let pool2 := pool.filter (fun e => decide (e.1 ∉ removed))
          if pool2.isEmpty then .done [] .exhausted else .next pool2

/-- Result of a fuelled Python computation: a value, a raised exception,
or fuel exhaustion (i.e. an execution longer than the given bound). -/
inductive PyRes (α : Type) : Type
  | ok (a : α)
  | exn
  | fuelOut

deriving DecidableEq

/-- The `while True` repair loop with explicit fuel. -/
def loopAux (st : SchedState) (cfg : Config)
    (maxF : List (Slot × List Str) → Nat)
    (mcf : List (Slot × List Str) → Nat → Str → Str → Nat) :
    Nat → List (Slot × List Str) → PyRes (List (Str × List Str) × ExitKind)
  | 0, _ => .fuelOut
  | fuel + 1, pool =>
    match stepFn st cfg maxF mcf pool with
    | .done m k => .ok (m, k)
    | .fail => .exn
    | .next pool2 => loopAux st cfg maxF mcf fuel pool2

/-- `assign_groups` with its exit site recorded.  The fuel
`|candidate_slots| + 1` is sufficient whenever every removal round really
shrinks the pool, which the termination analysis below makes precise. -/
def assign_groupsT (st : SchedState) (cfg : Config)
    (maxF : List (Slot × List Str) → Nat)
    (mcf : List (Slot × List Str) → Nat → Str → Str → Nat) :
    PyRes (List (Str × List Str) × ExitKind) :=
  let pool0 := candidateSlots st.participant_slots cfg.min_size
  if pool0.isEmpty then .ok ([], .noCandidates)
  else loopAux st cfg maxF mcf (pool0.length + 1) pool0

/-- `assign_groups`: the returned mapping (slot string → member list). -/
def assign_groups (st : SchedState) (cfg : Config)
    (maxF : List (Slot × List Str) → Nat)
    (mcf : List (Slot × List Str) → Nat → Str → Str → Nat) :
    PyRes (List (Str × List Str)) :=
  match assign_groupsT st cfg maxF mcf with
  | .ok (m, _) => .ok m
  | .exn => .exn
  | .fuelOut => .fuelOut

/-- Integral feasibility of a flow of value `F` on the network of a pool:
unit edge capacities, per-person outflow at most 1 (source edge capacity),
per-slot inflow at most `max_size` (sink edge capacity), total value `F`.

Like `stepFn`, this contract lives on the role-separated arc space
(participant × slot node), so it describes the library's output exactly
when no participant name collides with a slot string, `"S"` or `"T"`;
the exact string-keyed feasibility notion, valid also at merged-node
inputs, is `nxFeasible`/`nxMcfOK` below. -/
def FeasibleF (parts : List Str) (sns : List Str)
    (edges : List (Str × Slot)) (maxSize : Int) (F : Nat)
    (f : Str → Str → Nat) : Prop :=
  (∀ p ∈ parts, ∀ sn ∈ sns, f p sn ≤ 1) ∧
  (∀ p ∈ parts, rowSum sns edges f p ≤ 1) ∧
  (∀ sn ∈ sns, (colSum parts edges f sn : Int) ≤ maxSize) ∧
  (parts.map (rowSum sns edges f)).sum = F

instance (parts sns : List Str) (edges : List (Str × Slot)) (maxSize : Int)
    (F : Nat) (f : Str → Str → Nat) :
    Decidable (FeasibleF parts sns edges maxSize F f) := by
  unfold FeasibleF; infer_instance

/-- Boolean form of the solver contract at one pool. -/
def solverContractB (st : SchedState) (cfg : Config)
    (maxF : List (Slot × List Str) → Nat)
    (mcf : List (Slot × List Str) → Nat → Str → Str → Nat)
    (pool : List (Slot × List Str)) : Bool :=
  match poolEdges st pool with
  | none => true
  | some edges =>
    decide (FeasibleF (partsOf st) (snsOf pool) edges cfg.max_size
      (maxF pool) (mcf pool (maxF pool)))

/-- The solver oracles satisfy their contract on every pool the repair
loop can reach (every sublist of the initial candidate pool). -/
def SolverOK (st : SchedState) (cfg : Config)
    (maxF : List (Slot × List Str) → Nat)
    (mcf : List (Slot × List Str) → Nat → Str → Str → Nat) : Prop :=
  ∀ pool ∈ (candidateSlots st.participant_slots cfg.min_size).sublists,
    solverContractB st cfg maxF mcf pool = true

/-- Every slot key of a pool survives the string round trip.  This is what
the removal phase of the repair loop (lines 194–199) silently assumes. -/
def rtPool (pool : List (Slot × List Str)) : Prop :=
  ∀ e ∈ pool, str_to_slot (slot_to_str e.1) = some e.1

/-- Greedy assignment pass. -/
def greedyGo (edges : List (Str × Slot)) (sns : List Str) (maxSize : Int) :
    List Str → List (Str × Str) → List (Str × Str)
  | [], acc => acc
  | p :: ps, acc =>
    match sns.find? (fun sn => hasEdge edges p sn &&
        decide ((((acc.filter (fun a => decide (a.2 = sn))).length : Int) + 1) ≤ maxSize)) with
    | some sn => greedyGo edges sns maxSize ps ((p, sn) :: acc)
    | none => greedyGo edges sns maxSize ps acc

/-- Greedy person→slot-node assignment for a pool. -/
def greedyAssign (st : SchedState) (maxSize : Int)
    (pool : List (Slot × List Str)) : List (Str × Str) :=
  match poolEdges st pool with
  | none => []
  | some edges => greedyGo edges (snsOf pool) maxSize (partsOf st) []

/-- Max-flow oracle induced by the greedy matching. -/
def greedyMaxF (st : SchedState) (cfg : Config)
    (pool : List (Slot × List Str)) : Nat :=
  (greedyAssign st cfg.max_size pool).length

/-- Min-cost-flow oracle induced by the greedy matching. -/
def greedyMcf (st : SchedState) (cfg : Config)
    (pool : List (Slot × List Str)) (_F : Nat) (p sn : Str) : Nat :=
  if (p, sn) ∈ greedyAssign st cfg.max_size pool then 1 else 0

instance (st : SchedState) (cfg : Config) (maxF) (mcf) :
    Decidable (SolverOK st cfg maxF mcf) := by
  unfold SolverOK; infer_instance

instance (pool : List (Slot × List Str)) : Decidable (rtPool pool) := by
  unfold rtPool; infer_instance

def wP1 : Str := "A A 1A".data

def wP2 : Str := "B B 1A".data

def wDay : Str := "Mon".data

def wSlot : Slot := (wDay, 540, 600)

def wState : SchedState :=
  ⟨[(wP1, [wSlot]), (wP2, [wSlot])],
   [(wP1, [(wDay, 600, 660)]), (wP2, [(wDay, 600, 660)])]⟩

def wCfg : Config := ⟨"08:00".data, "18:00".data, 60, 15, 2, 12⟩

def wResult : List (Str × List Str) := [(slot_to_str wSlot, [wP1, wP2])]

def ntP1 : Str := "A A 1A".data

def ntP2 : Str := "B B 1A".data

def ntP3 : Str := "C C 1A".data

def ntDay : Str := ['D', ' ']

def ntSlotA : Slot := (ntDay, 480, 540)

def ntSlotB : Slot := (ntDay, 495, 555)

def ntState : SchedState :=
  ⟨[(ntP1, [ntSlotA, ntSlotB]), (ntP2, [ntSlotA, ntSlotB]),
    (ntP3, [ntSlotA, ntSlotB])],
   [(ntP1, [(ntDay, 600, 660)]), (ntP2, [(ntDay, 600, 660)]),
    (ntP3, [(ntDay, 600, 660)])]⟩

def ntCfg : Config := ⟨"08:00".data, "18:00".data, 60, 15, 2, 2⟩

def exDay : Str := ['A', ' ', 'B']

def exSlotA : Slot := (exDay, 480, 540)

def exSlotB : Slot := (exDay, 495, 555)

def exState : SchedState :=
  ⟨[(ntP1, [exSlotA, exSlotB]), (ntP2, [exSlotA, exSlotB]),
    (ntP3, [exSlotA, exSlotB])],
   [(ntP1, [(exDay, 600, 660)]), (ntP2, [(exDay, 600, 660)]),
    (ntP3, [(exDay, 600, 660)])]⟩

/-- The ten decimal digit characters. -/
def isDigitCh (c : Char) : Prop :=
  c ∈ (['0', '1', '2', '3', '4', '5', '6', '7', '8', '9'] : List Char)

instance (c : Char) : Decidable (isDigitCh c) := by
  unfold isDigitCh; infer_instance

/-- The positional value accumulated by `digitsAux`:
`shiftVal fuel v n = v * 10 ^ (digit count of n) + n` when the fuel covers
`n`. -/
def shiftVal : Nat → Nat → Nat → Nat
  | 0, v, _ => v
  | fuel + 1, v, n =>
    if n < 10 then 10 * v + n
    else 10 * shiftVal fuel v (n / 10) + n % 10

/-- `invState`: one person whose recorded commitment on day `D` is the
inverted interval `(600, 0)` — reachable from a schedule cell
`"10:00-00:00"`, since `parse_time` never validates ordering. -/
def invState : SchedState := ⟨[], [(ntP1, [(['D'], 600, 0)])]⟩

/-- `regState`: one person with the ordinary commitment 10:00–11:00 on
day `D`. -/
def regState : SchedState := ⟨[], [(ntP1, [(['D'], 600, 660)])]⟩

def c10Cfg : Config := ⟨"07:50".data, "10:00".data, 0, 15, 2, 12⟩

def c10Sched : List (Str × List (Str × Str)) :=
  [("1A".data, [(['D'], "08:20-08:20".data)])]

def c10Roster : List (Str × Str × Str) :=
  [("A".data, "B".data, "1A".data)]

def c10State : SchedState :=
  ⟨[("A B 1A".data,
     [(['D'], 470, 470), (['D'], 485, 485), (['D'], 500, 500),
      (['D'], 500, 500), (['D'], 515, 515), (['D'], 530, 530),
      (['D'], 545, 545), (['D'], 560, 560), (['D'], 575, 575),
      (['D'], 590, 590)])],
   [("A B 1A".data, [(['D'], 500, 500)])]⟩

/-- The invariant `build_participant_slots` establishes: every candidate
slot of every person has a recorded commitment for its day that it does
not overlap. -/
def StateOK (st : SchedState) : Prop :=
  ∀ name slots, alGet name st.participant_slots = some slots →
    ∀ s ∈ slots, ∃ times cs ce, alGet name st.class_times = some times ∧
      alGet s.1 times = some (cs, ce) ∧ (s.2.2 ≤ cs ∨ ce ≤ s.2.1)

def c9Cfg : Config := ⟨"00:00".data, "00:00".data, 60, 1000000, 1, 12⟩

def c9Sched : List (Str × List (Str × Str)) :=
  [("1A".data, [(['D'], "16668:20-16669:20".data)])]

def c9Roster : List (Str × Str × Str) :=
  [("A".data, "B".data, "1A".data)]

def c9State : SchedState :=
  ⟨[("A B 1A".data, [(['D'], 0, 60), (['D'], 1000000, 1000060)])],
   [("A B 1A".data, [(['D'], 1000100, 1000160)])]⟩

def c9wCfg : Config := ⟨"08:00".data, "10:00".data, 60, 15, 1, 12⟩

def c9wSched : List (Str × List (Str × Str)) :=
  [("1A".data, [(['D'], "09:00-09:30".data)])]

def c9wState : SchedState :=
  ⟨[("A B 1A".data, [(['D'], 480, 540)])],
   [("A B 1A".data, [(['D'], 540, 570)])]⟩

/-- The source-node key `"S"` (line 135).  Like every other node of the
flow networks it lives in the one string namespace of the graph. -/
def sourceN : Str := "S".data

/-- The sink-node key `"T"` (line 135). -/
def sinkN : Str := "T".data

/-- One arc of the string-keyed `nx.DiGraph` built by `assign_groups`
(lines 134–146 and 152–170): source node, target node, `capacity` and
`weight` attributes.  Both networks key *all* nodes by strings — `"S"`,
`"T"`, participant names and slot strings share one namespace, so a
participant whose name equals a slot's string is a single merged node
carrying both roles. -/
structure Arc where
  src : Str
  dst : Str
  cap : Int
  w : Int

deriving DecidableEq

/-- `G.add_edge(u, v, capacity=…, weight=…)`: overwrite the attributes in
place if the arc exists, else append it (the dict-of-dicts adjacency is
insertion ordered, as `alSet` is for dicts). -/
def addEdge (u v : Str) (cap w : Int) : List Arc → List Arc
  | [] => [⟨u, v, cap, w⟩]
  | a :: rest =>
    if a.src = u ∧ a.dst = v then ⟨u, v, cap, w⟩ :: rest
    else a :: addEdge u v cap w rest

/-- The arcs contributed by one pool entry (lines 140–144 / 163–168): a
unit-capacity arc `p → slot_to_str slot` for each candidate whose wait is
below the sentinel, weighted by the wait; a bare (non-pair)
`compute_wait_minutes` return is the tuple-unpacking `ValueError`. -/
def nxCandArcs (st : SchedState) (slot : Slot) :
    List Str → List Arc → Option (List Arc)
  | [], g => some g
  | p :: ps, g =>
    match compute_wait_minutes st p slot with
    | .bare _ => none
    | .pair w _ =>
      nxCandArcs st slot ps
        (if w < LARGE_PENALTY then addEdge p (slot_to_str slot) 1 w g else g)

/-- The person→slot arcs of the whole pool, in pool order. -/
def nxPoolArcs (st : SchedState) : List (Slot × List Str) → List Arc →
    Option (List Arc)
  | [], g => some g
  | e :: rest, g => (nxCandArcs st e.1 e.2 g).bind (nxPoolArcs st rest)

/-- The string-keyed network of one repair-loop iteration: `S → p` arcs
(capacity 1) in participant order, the person→slot arcs in pool order,
then `slot → T` arcs (capacity `max_size`).  The max-flow graph `G`
(lines 134–146) and the min-cost graph `Gc` (lines 152–170) have exactly
these nodes and arcs; `Gc` additionally carries the weights, which
`maximum_flow_value` ignores. -/
def nxGraph (st : SchedState) (cfg : Config)
    (pool : List (Slot × List Str)) : Option (List Arc) :=
  let g0 := (partsOf st).foldl (fun g p => addEdge sourceN p 1 0 g) []
  (nxPoolArcs st pool g0).map fun g1 =>
    pool.foldl (fun g e => addEdge (slot_to_str e.1) sinkN cfg.max_size 0 g) g1

/-- Total flow into node `n` (a flow assignment is aligned index-by-index
with the arc list). -/
def inFlow (g : List Arc) (fl : List Int) (n : Str) : Int :=
  (((g.zip fl).filter (fun a => decide (a.1.dst = n))).map Prod.snd).sum

/-- Total flow out of node `n`. -/
def outFlow (g : List Arc) (fl : List Int) (n : Str) : Int :=
  (((g.zip fl).filter (fun a => decide (a.1.src = n))).map Prod.snd).sum

/-- The value of a flow: net flow out of the source node. -/
def nxValue (g : List Arc) (fl : List Int) : Int :=
  outFlow g fl sourceN - inFlow g fl sourceN

/-- The node set of the network.  (Every node of `G`/`Gc` is an endpoint
of some arc: each participant has its `S` arc and each pool slot its `T`
arc.) -/
def nxNodes (g : List Arc) : List Str :=
  (g.map Arc.src ++ g.map Arc.dst).dedup

/-- An integral capacity-respecting flow: correct length, `0 ≤ flow ≤
capacity` on every arc, and conservation at every node other than `"S"`
and `"T"`. -/
def nxFeasibleCaps (g : List Arc) (fl : List Int) : Bool :=
  decide (fl.length = g.length) &&
  (g.zip fl).all (fun a => decide (0 ≤ a.2) && decide (a.2 ≤ a.1.cap)) &&
  (nxNodes g).all (fun n =>
    decide (n = sourceN) || decide (n = sinkN) ||
    decide (outFlow g fl n = inFlow g fl n))

/-- Feasibility for the min-cost-flow problem with the demands of lines
172–175 (`-F` at `"S"`, `F` at `"T"`): capacities and conservation as in
`nxFeasibleCaps`, net out-flow `F` at the source, net in-flow `F` at the
sink. -/
def nxFeasible (g : List Arc) (F : Int) (fl : List Int) : Bool :=
  nxFeasibleCaps g fl && decide (nxValue g fl = F) &&
  decide (inFlow g fl sinkN - outFlow g fl sinkN = F)

/-- Total weighted cost of a flow. -/
def nxCost (g : List Arc) (fl : List Int) : Int :=
  ((g.zip fl).map (fun a => a.1.w * a.2)).sum

/-- All integer lists with `0 ≤ l[i] ≤ bs[i]`: a finite search space
containing every integral capacity-respecting flow assignment
(`mem_intLists` below). -/
def intLists : List Int → List (List Int)
  | [] => [[]]
  | b :: bs =>
    ((List.range (b.toNat + 1)).map Int.ofNat).flatMap
      fun x => (intLists bs).map fun l => x :: l

/-- `nx.maximum_flow_value(G, "S", "T")` for integer capacities: the
largest value of an integral feasible flow.  (For integer capacities the
maximum over integral flows is the true maximum-flow value, and it is the
value `networkx` returns; `nxValue_le_nxMaxFlowVal` below proves the
defining bound.) -/
def nxMaxFlowVal (g : List Arc) : Int :=
  (((intLists (g.map Arc.cap)).filter (nxFeasibleCaps g)).map
    (nxValue g)).foldl max 0

/-- What `nx.algorithms.flow.min_cost_flow(Gc)` guarantees for its return
value: an integral feasible flow meeting the demands whose cost is minimal
among all such flows. -/
def nxMcfOK (g : List Arc) (F : Int) (fl : List Int) : Bool :=
  nxFeasible g F fl &&
  (intLists (g.map Arc.cap)).all
    (fun fl2 => !(nxFeasible g F fl2) || decide (nxCost g fl ≤ nxCost g fl2))

/-- `flow_dict[p].items()`: the out-arcs of node `p` with their flow, in
adjacency order — for a merged person/slot node this includes its
slot-role arcs (to `"T"` in particular). -/
def nxOuts (g : List Arc) (fl : List Int) (p : Str) : List (Str × Int) :=
  ((g.zip fl).filter (fun a => decide (a.1.src = p))).map
    (fun a => (a.1.dst, a.2))

/-- `slot_counts.setdefault(sn, 0); slot_counts[sn] += f` (lines
185–186). -/
def alAdd (k : Str) (n : Int) : List (Str × Int) → List (Str × Int)
  | [] => [(k, n)]
  | (k2, v) :: rest =>
    if k2 = k then (k2, v + n) :: rest else (k2, v) :: alAdd k n rest

/-- `slot_members.setdefault(sn, []).append(p)` (line 187). -/
def alApp (k : Str) (p : Str) : List (Str × List Str) → List (Str × List Str)
  | [] => [(k, [p])]
  | (k2, v) :: rest =>
    if k2 = k then (k2, v ++ [p]) :: rest else (k2, v) :: alApp k p rest

/-- The extraction loop (lines 179–187): for each participant in order,
walk `flow_dict[p].items()` and record every out-arc with positive flow in
`slot_counts` / `slot_members`. -/
def nxExtract (g : List Arc) (fl : List Int) :
    List Str → List (Str × Int) × List (Str × List Str) →
    List (Str × Int) × List (Str × List Str)
  | [], acc => acc
  | p :: ps, acc =>
    nxExtract g fl ps
      ((nxOuts g fl p).foldl
        (fun a o => if 0 < o.2 then (alAdd o.1 o.2 a.1, alApp o.1 p a.2) else a)
        acc)

/-- One `while True` iteration of `assign_groups` on the string-keyed
network (lines 133–201).  `maximum_flow_value` is computed exactly
(`nxMaxFlowVal`); `min_cost_flow` is abstracted by the oracle `mcfO`,
constrained where needed through `nxMcfOK`.  Unlike `stepFn`, which
separates persons and slot nodes by role, this model keeps the source's
single string namespace, so it also captures executions in which a
participant name collides with a slot string. -/
def nxStepFn (st : SchedState) (cfg : Config)
    (mcfO : List Arc → Int → List Int)
    (pool : List (Slot × List Str)) : StepRes :=
  match nxGraph st cfg pool with
  | none => .fail
  | some g =>
    let F := nxMaxFlowVal g
    if F = 0 then .done [] .flowZero
    else
      let fl := mcfO g F
      let cm := nxExtract g fl (partsOf st) ([], [])
      let rem := (cm.1.filter (fun e => decide (e.2 < cfg.min_size))).map Prod.fst
      if rem.isEmpty then
        .done (sortFinal (cm.2.filter
          (fun e => decide (cfg.min_size ≤ (e.2.length : Int))))) .solved
      else
        match rem.mapM str_to_slot with
        | none => .fail
        | some removed =>
          let pool2 := pool.filter (fun e => decide (e.1 ∉ removed))
          if pool2.isEmpty then .done [] .exhausted else .next pool2

/-- The repair loop on the string-keyed network, with fuel. -/
def nxLoopAux (st : SchedState) (cfg : Config)
    (mcfO : List Arc → Int → List Int) :
    Nat → List (Slot × List Str) → PyRes (List (Str × List Str) × ExitKind)
  | 0, _ => .fuelOut
  | fuel + 1, pool =>
    match nxStepFn st cfg mcfO pool with
    | .done m k => .ok (m, k)
    | .fail => .exn
    | .next pool2 => nxLoopAux st cfg mcfO fuel pool2

/-- `assign_groups` over the string-keyed network, exit site recorded. -/
def assign_groupsNxT (st : SchedState) (cfg : Config)
    (mcfO : List Arc → Int → List Int) :
    PyRes (List (Str × List Str) × ExitKind) :=
  let pool0 := candidateSlots st.participant_slots cfg.min_size
  if pool0.isEmpty then .ok ([], .noCandidates)
  else nxLoopAux st cfg mcfO (pool0.length + 1) pool0

/-- `assign_groups` over the string-keyed network: the returned mapping. -/
def assign_groupsNx (st : SchedState) (cfg : Config)
    (mcfO : List Arc → Int → List Int) : PyRes (List (Str × List Str)) :=
  match assign_groupsNxT st cfg mcfO with
  | .ok (m, _) => .ok m
  | .exn => .exn
  | .fuelOut => .fuelOut

/-- Participant whose roster row (Imię `"Mon"`, Nazwisko `"X"`, Klasa
`"13:15-14:15"`) gives the name `"Mon X 13:15-14:15"` — exactly the
string of the candidate slot `("Mon X", 795, 855)`, so in the flow
networks this participant and that slot are one merged node. -/
def cxStar : Str := "Mon X 13:15-14:15".data

/-- Class-1A participant `"A B 1A"`. -/
def cxP2 : Str := "A B 1A".data

/-- Class-1A participant `"C D 1A"`. -/
def cxP3 : Str := "C D 1A".data

/-- The schedule's day column labelled `"Mon X"`. -/
def cxDay : Str := "Mon X".data

/-- The class-1A candidate slot `("Mon X", 13:15, 14:15)`, whose string
equals the collided participant's name. -/
def cxSlotM : Slot := (cxDay, 795, 855)

/-- The collided participant's Tuesday candidate slot. -/
def cxSlotTue : Slot := ("Tue".data, 795, 855)

/-- The collided participant's Wednesday candidate slot. -/
def cxSlotWed : Slot := ("Wed".data, 795, 855)

/-- Window 13:00–14:15, hour-long slots, step 60, `min_size = max_size
= 1`. -/
def cxCfg : Config := ⟨"13:00".data, "14:15".data, 60, 60, 1, 1⟩

/-- Resolved schedule: class `1A` has a 13:00–13:15 commitment in the day
column `"Mon X"`; class `13:15-14:15` (the collided participant's Klasa
cell) has 13:00–13:15 commitments on `Tue` and `Wed`. -/
def cxSched : List (Str × List (Str × Str)) :=
  [("1A".data, [(cxDay, "13:00-13:15".data)]),
   ("13:15-14:15".data, [("Tue".data, "13:00-13:15".data),
                         ("Wed".data, "13:00-13:15".data)])]

/-- The roster: the collided participant first, then the two 1A
participants. -/
def cxRoster : List (Str × Str × Str) :=
  [("Mon".data, "X".data, "13:15-14:15".data),
   ("A".data, "B".data, "1A".data),
   ("C".data, "D".data, "1A".data)]

/-- The state `build_participant_slots` produces from `cxSched` and
`cxRoster` (proved below). -/
def cxState : SchedState :=
  ⟨[(cxStar, [cxSlotTue, cxSlotWed]), (cxP2, [cxSlotM]), (cxP3, [cxSlotM])],
   [(cxStar, [("Tue".data, 780, 795), ("Wed".data, 780, 795)]),
    (cxP2, [(cxDay, 780, 795)]), (cxP3, [(cxDay, 780, 795)])]⟩

/-- The initial candidate pool of `assign_groups` on `cxState`. -/
def cxPool : List (Slot × List Str) :=
  [(cxSlotTue, [cxStar]), (cxSlotWed, [cxStar]), (cxSlotM, [cxP2, cxP3])]

/-- The slot string of `cxSlotTue`. -/
def cxTueS : Str := "Tue 13:15-14:15".data

/-- The slot string of `cxSlotWed`. -/
def cxWedS : Str := "Wed 13:15-14:15".data

/-- The string-keyed network of the first repair-loop iteration on
`cxPool`.  The merged node `cxStar` receives the `"S"` arc and the two
person→slot arcs of the 1A participants, and emits its own person→slot
arcs (to `cxTueS`, `cxWedS`) together with the slot-role arc to `"T"`. -/
def cxG : List Arc :=
  [⟨sourceN, cxStar, 1, 0⟩, ⟨sourceN, cxP2, 1, 0⟩, ⟨sourceN, cxP3, 1, 0⟩,
   ⟨cxStar, cxTueS, 1, 0⟩, ⟨cxStar, cxWedS, 1, 0⟩,
   ⟨cxP2, cxStar, 1, 0⟩, ⟨cxP3, cxStar, 1, 0⟩,
   ⟨cxTueS, sinkN, 1, 0⟩, ⟨cxWedS, sinkN, 1, 0⟩, ⟨cxStar, sinkN, 1, 0⟩]

/-- The unique integral flow on `cxG` meeting the demands: every arc
saturated (`cx_flow_unique` below). -/
def cxFlow : List Int := List.replicate 10 1

/-- The mapping `assign_groups` returns on the collision scenario: the
merged slot with both 1A participants, and the collided participant under
the sink key `"T"` and both of its own slots. -/
def cxResult : List (Str × List Str) :=
  [(cxStar, [cxP2, cxP3]), (sinkN, [cxStar]),
   (cxTueS, [cxStar]), (cxWedS, [cxStar])]

theorem sanity_parse_time_basic : parse_time "08:15".data = some 495 := by decide

theorem sanity_parse_time_strip : parse_time " 8:5 ".data = some 485 := by decide

theorem sanity_parse_time_alpha : parse_time "ab:15".data = none := by decide

theorem sanity_parse_time_fields : parse_time "1:2:3".data = none := by decide

theorem sanity_slot_to_str : slot_to_str (['M','o','n'], 495, 555) = "Mon 08:15-09:15".data := by decide

theorem sanity_str_to_slot : str_to_slot "Mon 08:15-09:15".data = some (['M','o','n'], 495, 555) := by decide

theorem mem_insSorted {x y : Str × List Str} {l : List (Str × List Str)} :
    y ∈ insSorted x l ↔ y = x ∨ y ∈ l := by
  induction l with
  | nil => simp [insSorted]
  | cons z zs ih =>
    by_cases h : lexLt x.1 z.1 = true
    · simp [insSorted, h]
    · simp [insSorted, h, ih]
      tauto

theorem perm_insSorted (x : Str × List Str) (l : List (Str × List Str)) :
    List.Perm (insSorted x l) (x :: l) := by
  induction l with
  | nil => simp [insSorted]
  | cons z zs ih =>
    by_cases h : lexLt x.1 z.1 = true
    · simp [insSorted, h]
    · simp only [insSorted, h, if_neg]
      exact List.Perm.trans (ih.cons z) (List.Perm.swap x z zs)

theorem perm_sortFinal (l : List (Str × List Str)) :
    List.Perm (sortFinal l) l := by
  induction l with
  | nil => simp [sortFinal]
  | cons z zs ih =>
    exact List.Perm.trans (perm_insSorted z (sortFinal zs)) (ih.cons z)

theorem mem_sortFinal {y : Str × List Str} {l : List (Str × List Str)} :
    y ∈ sortFinal l ↔ y ∈ l :=
  (perm_sortFinal l).mem_iff

/-- Nat sums over a sublist are no larger. -/
theorem sum_map_sublist {α : Type} {l1 l2 : List α} (g : α → Nat)
    (h : List.Sublist l1 l2) : (l1.map g).sum ≤ (l2.map g).sum := by
  induction h with
  | slnil => simp
  | cons a _ ih => simp only [List.map_cons, List.sum_cons]; omega
  | cons₂ a _ ih => simp only [List.map_cons, List.sum_cons]; omega

/-- The number of elements passing a test and carrying a positive value is
at most the total value over the elements passing the test. -/
theorem length_filter_pos_le_sum {α : Type} (l : List α) (q : α → Bool)
    (g : α → Nat) :
    (l.filter (fun a => q a && decide (0 < g a))).length ≤
      ((l.filter q).map g).sum := by
  induction l with
  | nil => simp
  | cons a l ih =>
    by_cases hq : q a = true
    · by_cases hg : 0 < g a
      · simp [List.filter_cons, hq, hg]; omega
      · simp [List.filter_cons, hq, hg]; omega
    · simp [List.filter_cons, hq, ih]

/-- When each value is at most 1, the total value over the elements passing
a test is at most the number of them carrying a positive value. -/
theorem sum_le_length_filter_pos {α : Type} (l : List α) (q : α → Bool)
    (g : α → Nat) (h1 : ∀ a ∈ l, g a ≤ 1) :
    ((l.filter q).map g).sum ≤
      (l.filter (fun a => q a && decide (0 < g a))).length := by
  induction l with
  | nil => simp
  | cons a l ih =>
    have ha := h1 a (by simp)
    have ih2 := ih (fun b hb => h1 b (by simp [hb]))
    by_cases hq : q a = true
    · by_cases hg : 0 < g a
      · simp [List.filter_cons, hq, hg]; omega
      · simp [List.filter_cons, hq, hg]; omega
    · simp [List.filter_cons, hq, ih2]

theorem candEdges_mem {st : SchedState} {slot : Slot} {cand : List Str}
    {l : List (Str × Slot)} (h : candEdges st slot cand = some l)
    {x : Str × Slot} :
    x ∈ l ↔ x.2 = slot ∧ x.1 ∈ cand ∧
      ∃ w t, compute_wait_minutes st x.1 slot = .pair w t ∧
        w < LARGE_PENALTY := by
  induction cand generalizing l with
  | nil =>
    simp only [candEdges, Option.some.injEq] at h
    subst h; simp
  | cons p ps ih =>
    simp only [candEdges] at h
    cases hw : compute_wait_minutes st p slot with
    | bare n => rw [hw] at h; exact absurd h (by simp)
    | pair w t =>
      rw [hw] at h
      cases hrest : candEdges st slot ps with
      | none => rw [hrest] at h; exact absurd h (by simp)
      | some rest =>
        rw [hrest] at h
        have hl : (if w < LARGE_PENALTY then (p, slot) :: rest else rest) = l := by
          simpa using h
        subst hl
        by_cases hlt : w < LARGE_PENALTY
        · simp only [if_pos hlt, List.mem_cons, ih hrest, List.mem_cons]
          constructor
          · rintro (rfl | ⟨h2, hm, hw2⟩)
            · exact ⟨rfl, Or.inl rfl, w, t, hw, hlt⟩
            · exact ⟨h2, Or.inr hm, hw2⟩
          · rintro ⟨h2, (rfl | hm), hw2⟩
            · left
              obtain ⟨w', t', hw', _⟩ := hw2
              cases x with
              | mk x1 x2 => simp only at h2; subst h2; rfl
            · exact Or.inr ⟨h2, hm, hw2⟩
        · simp only [if_neg hlt, ih hrest, List.mem_cons]
          constructor
          · rintro ⟨h2, hm, hw2⟩; exact ⟨h2, Or.inr hm, hw2⟩
          · rintro ⟨h2, (rfl | hm), ⟨w', t', hw', hlt'⟩⟩
            · have heq := hw.symm.trans hw'
              injection heq with e1 e2
              exact absurd (by rw [e1]; exact hlt' : w < LARGE_PENALTY) hlt
            · exact ⟨h2, hm, w', t', hw', hlt'⟩

theorem poolEdges_mem {st : SchedState} {pool : List (Slot × List Str)}
    {l : List (Str × Slot)} (h : poolEdges st pool = some l)
    {x : Str × Slot} :
    x ∈ l ↔ ∃ cand, (x.2, cand) ∈ pool ∧ x.1 ∈ cand ∧
      ∃ w t, compute_wait_minutes st x.1 x.2 = .pair w t ∧
        w < LARGE_PENALTY := by
  induction pool generalizing l with
  | nil =>
    simp only [poolEdges, Option.some.injEq] at h
    subst h; simp
  | cons e rest ih =>
    simp only [poolEdges, Option.bind_eq_bind, Option.bind_eq_some, Option.pure_def,
      Option.some.injEq] at h
    obtain ⟨l1, h1, l2, h2, h3⟩ := h
    subst h3
    simp only [List.mem_append, candEdges_mem h1, ih h2, List.mem_cons]
    constructor
    · rintro (⟨h2x, hm, hw⟩ | ⟨cand, hc, hm, hw⟩)
      · refine ⟨e.2, Or.inl ?_, hm, ?_⟩
        · rw [h2x]
        · rw [h2x]; exact hw
      · exact ⟨cand, Or.inr hc, hm, hw⟩
    · rintro ⟨cand, (hc | hc), hm, hw⟩
      · left
        have h2x : x.2 = e.1 := by
          have := congrArg Prod.fst hc; simpa using this
        have hcand : cand = e.2 := by
          have := congrArg Prod.snd hc; simpa using this
        subst hcand
        exact ⟨h2x, hm, by rw [← h2x]; exact hw⟩
      · exact Or.inr ⟨cand, hc, hm, hw⟩

theorem poolEdges_isSome_mono {st : SchedState}
    {pool pool' : List (Slot × List Str)}
    (hsub : List.Sublist pool' pool) :
    (poolEdges st pool).isSome = true →
      (poolEdges st pool').isSome = true := by
  induction hsub with
  | slnil => intro h; simp [poolEdges]
  | @cons l1 l2 e _ ih =>
    intro h
    apply ih
    simp only [poolEdges, Option.bind_eq_bind] at h
    cases h1 : candEdges st e.1 e.2 with
    | none => rw [h1] at h; simp at h
    | some la =>
      rw [h1] at h
      cases h2 : poolEdges st l2 with
      | none => rw [h2] at h; simp at h
      | some lb => simp [h2]
  | @cons₂ l1 l2 e _ ih =>
    intro h
    simp only [poolEdges, Option.bind_eq_bind] at h ⊢
    cases h1 : candEdges st e.1 e.2 with
    | none => rw [h1] at h; simp at h
    | some la =>
      rw [h1] at h
      cases h2 : poolEdges st l2 with
      | none => rw [h2] at h; simp at h
      | some lb =>
        have h3 := ih (by simp [h2])
        cases h4 : poolEdges st l1 with
        | none => rw [h4] at h3; simp at h3
        | some lc => simp

theorem stepFn_done_elim {st : SchedState} {cfg : Config} {maxF mcf}
    {pool : List (Slot × List Str)} {m k}
    (h : stepFn st cfg maxF mcf pool = .done m k) :
    m = [] ∨
    (k = .solved ∧ ∃ edges, poolEdges st pool = some edges ∧
      maxF pool ≠ 0 ∧
      removeOf (partsOf st) edges (mcf pool (maxF pool)) (snsOf pool)
        cfg.min_size = [] ∧
      m = finalOf (partsOf st) edges (mcf pool (maxF pool)) (snsOf pool)
        cfg.min_size) := by
  unfold stepFn at h
  split at h
  · exact absurd h (by simp)
  next edges hpe =>
    dsimp only at h
    split at h
    next hF =>
      cases h
      exact Or.inl rfl
    next hF =>
      split at h
      next hrem =>
        cases h
        refine Or.inr ⟨rfl, edges, hpe, hF, ?_, rfl⟩
        simpa using hrem
      next hrem =>
        split at h
        · exact absurd h (by simp)
        next removed hmap =>
          split at h
          next hemp =>
            cases h
            exact Or.inl rfl
          next hemp => exact absurd h (by simp)

theorem stepFn_next_sublist {st : SchedState} {cfg : Config} {maxF mcf}
    {pool pool2 : List (Slot × List Str)}
    (h : stepFn st cfg maxF mcf pool = .next pool2) :
    List.Sublist pool2 pool := by
  unfold stepFn at h
  split at h
  · exact absurd h (by simp)
  next edges hpe =>
    dsimp only at h
    split at h
    next hF => exact absurd h (by simp)
    next hF =>
      split at h
      next hrem => exact absurd h (by simp)
      next hrem =>
        split at h
        · exact absurd h (by simp)
        next removed hmap =>
          split at h
          next hemp => exact absurd h (by simp)
          next hemp =>
            cases h
            exact List.filter_sublist pool

/-- Transport a property of the returned mapping through the repair loop:
if every `done` exit from a reachable pool satisfies `P`, so does the
loop's result. -/
theorem loopAux_ok_inv {st : SchedState} {cfg : Config} {maxF mcf}
    {pool0 : List (Slot × List Str)} (P : List (Str × List Str) → Prop)
    (hstep : ∀ pool, List.Sublist pool pool0 → ∀ m k,
      stepFn st cfg maxF mcf pool = .done m k → P m) :
    ∀ fuel pool, List.Sublist pool pool0 →
      ∀ m k, loopAux st cfg maxF mcf fuel pool = .ok (m, k) → P m := by
  intro fuel
  induction fuel with
  | zero =>
    intro pool hsub m k h
    exact absurd h (by simp [loopAux])
  | succ n ih =>
    intro pool hsub m k h
    rw [loopAux] at h
    cases hs : stepFn st cfg maxF mcf pool with
    | done m' k' =>
      rw [hs] at h
      cases h
      exact hstep pool hsub _ _ hs
    | fail => rw [hs] at h; exact absurd h (by simp)
    | next pool2 =>
      rw [hs] at h
      exact ih pool2 ((stepFn_next_sublist hs).trans hsub) m k h

/-- Unpack the solver contract at a reachable pool. -/
theorem solverOK_feasible {st : SchedState} {cfg : Config} {maxF mcf}
    (hs : SolverOK st cfg maxF mcf) {pool : List (Slot × List Str)}
    (hsub : List.Sublist pool (candidateSlots st.participant_slots cfg.min_size))
    {edges : List (Str × Slot)} (hpe : poolEdges st pool = some edges) :
    FeasibleF (partsOf st) (snsOf pool) edges cfg.max_size (maxF pool)
      (mcf pool (maxF pool)) := by
  have hc := hs pool (List.mem_sublists.mpr hsub)
  unfold solverContractB at hc
  rw [hpe] at hc
  exact of_decide_eq_true hc

/-- Membership in the success mapping. -/
theorem mem_finalOf {parts : List Str} {edges : List (Str × Slot)}
    {f : Str → Str → Nat} {sns : List Str} {minSize : Int}
    {e : Str × List Str}
    (h : e ∈ finalOf parts edges f sns minSize) :
    e.2 = membersOf parts edges f e.1 ∧ e.1 ∈ activeOf parts edges f sns ∧
      minSize ≤ ((membersOf parts edges f e.1).length : Int) := by
  unfold finalOf at h
  rw [mem_sortFinal] at h
  obtain ⟨sn, hsn, he⟩ := List.mem_map.mp h
  obtain ⟨hact, hmin⟩ := List.mem_filter.mp hsn
  subst he
  exact ⟨rfl, hact, of_decide_eq_true hmin⟩

/-- A duplicate-free list counts any element at most once. -/
theorem count_le_one_of_nodup {l : List Str} (h : l.Nodup) (p : Str) :
    l.count p ≤ 1 := by
  induction l with
  | nil => simp
  | cons a l ih =>
    rcases List.nodup_cons.mp h with ⟨ha, hl⟩
    rw [List.count_cons]
    by_cases hpa : a = p
    · subst hpa
      have hz : l.count a = 0 := List.count_eq_zero.mpr ha
      simp [hz]
    · have : ¬ (a == p) = true := by simpa using hpa
      simp [this]
      exact ih hl

/-- Count of one person in a members list, bounded by their flow on the
edge (given a duplicate-free participant list, as `participant_slots` keys
always are). -/
theorem count_members_le_ite {parts : List Str} (hnd : parts.Nodup)
    (edges : List (Str × Slot)) (f : Str → Str → Nat) (sn p : Str) :
    (membersOf parts edges f sn).count p ≤
      if hasEdge edges p sn then f p sn else 0 := by
  by_cases hp : (hasEdge edges p sn && decide (0 < f p sn)) = true
  · have h1 : (membersOf parts edges f sn).count p ≤ parts.count p :=
      (List.filter_sublist parts).count_le p
    have h2 : parts.count p ≤ 1 := count_le_one_of_nodup hnd p
    rw [Bool.and_eq_true] at hp
    have h3 : 0 < f p sn := of_decide_eq_true hp.2
    rw [if_pos hp.1]
    omega
  · have h0 : p ∉ membersOf parts edges f sn := by
      intro hmem
      exact hp (List.mem_filter.mp hmem).2
    rw [List.count_eq_zero.mpr h0]
    omega

/-- Replacing a filter by a pointwise `if` does not change a Nat sum. -/
theorem sum_map_ite_eq_sum_filter {α : Type} (l : List α) (q : α → Bool)
    (g : α → Nat) :
    (l.map (fun x => if q x then g x else 0)).sum =
      ((l.filter q).map g).sum := by
  induction l with
  | nil => simp
  | cons a l ih =>
    by_cases hq : q a = true
    · simp [List.filter_cons, hq, ih]
    · simp [List.filter_cons, hq, ih]

/-- A returned `.ok` mapping comes from the instrumented engine. -/
theorem assign_ok_of {st : SchedState} {cfg : Config} {maxF mcf}
    {m : List (Str × List Str)}
    (h : assign_groups st cfg maxF mcf = .ok m) :
    ∃ k, assign_groupsT st cfg maxF mcf = .ok (m, k) := by
  unfold assign_groups at h
  generalize hA : assign_groupsT st cfg maxF mcf = T at h ⊢
  cases T with
  | ok mk =>
    obtain ⟨m', k⟩ := mk
    simp only [PyRes.ok.injEq] at h
    subst h
    exact ⟨k, rfl⟩
  | exn => exact absurd h (by simp)
  | fuelOut => exact absurd h (by simp)

/-- A person with a positive-flow edge into a slot node has, via that
edge, a candidate slot there that does not overlap their commitment. -/
theorem wait_pair_lt_no_overlap {st : SchedState} {p : Str} {slot : Slot}
    {w : Int} {t : WTag}
    (hw : compute_wait_minutes st p slot = .pair w t)
    (hlt : w < LARGE_PENALTY) :
    ∃ times cs ce, alGet p st.class_times = some times ∧
      alGet slot.1 times = some (cs, ce) ∧
      (slot.2.2 ≤ cs ∨ ce ≤ slot.2.1) := by
  unfold compute_wait_minutes at hw
  cases h1 : alGet p st.class_times with
  | none => rw [h1] at hw; exact absurd hw (by simp)
  | some times =>
    rw [h1] at hw
    dsimp only at hw
    cases h2 : alGet slot.1 times with
    | none => rw [h2] at hw; exact absurd hw (by simp)
    | some tc =>
      obtain ⟨cs, ce⟩ := tc
      rw [h2] at hw
      dsimp only at hw
      by_cases hb : slot.2.2 ≤ cs
      · exact ⟨times, cs, ce, rfl, h2, Or.inl hb⟩
      · rw [if_neg hb] at hw
        by_cases ha : ce ≤ slot.2.1
        · exact ⟨times, cs, ce, rfl, h2, Or.inr ha⟩
        · rw [if_neg ha] at hw
          injection hw with hw1 hw2
          exact absurd (hw1 ▸ hlt) (lt_irrefl _)

theorem mapM_isSome {α β : Type} (g : α → Option β) (l : List α)
    (h : ∀ x ∈ l, (g x).isSome = true) :
    ∃ l2, l.mapM g = some l2 := by
  induction l with
  | nil => exact ⟨[], rfl⟩
  | cons a l ih =>
    obtain ⟨l2, hl2⟩ := ih (fun x hx => h x (by simp [hx]))
    have ha := h a (by simp)
    cases hga : g a with
    | none => rw [hga] at ha; simp at ha
    | some b =>
      refine ⟨b :: l2, ?_⟩
      rw [List.mapM_cons, hga, hl2]
      rfl

theorem mapM_mem {α β : Type} {g : α → Option β} {l : List α}
    {l2 : List β} (h : l.mapM g = some l2) {x : α} {y : β}
    (hx : x ∈ l) (hy : g x = some y) : y ∈ l2 := by
  induction l generalizing l2 with
  | nil => exact absurd hx (by simp)
  | cons a l ih =>
    rw [List.mapM_cons] at h
    cases hga : g a with
    | none => rw [hga] at h; exact absurd h (by simp)
    | some b =>
      rw [hga] at h
      cases hrest : l.mapM g with
      | none => rw [hrest] at h; exact absurd h (by simp)
      | some bs =>
        rw [hrest] at h
        simp only [Option.bind_some, Option.bind_eq_bind, Option.pure_def,
          Option.some_bind, Option.some.injEq] at h
        subst h
        rcases List.mem_cons.mp hx with rfl | hx2
        · rw [hga] at hy
          simp only [Option.some.injEq] at hy
          subst hy
          exact List.mem_cons_self _ _
        · exact List.mem_cons_of_mem _ (ih hrest hx2)

theorem length_filter_lt {α : Type} (l : List α) (q : α → Bool) (a : α)
    (ha : a ∈ l) (hq : q a = false) : (l.filter q).length < l.length := by
  induction l with
  | nil => exact absurd ha (by simp)
  | cons b l ih =>
    rcases List.mem_cons.mp ha with rfl | ha2
    · have hs := (List.filter_sublist l (p := q)).length_le
      simp [List.filter_cons, hq]
      omega
    · by_cases hb : q b = true
      · have := ih ha2
        simp [List.filter_cons, hb]
        omega
      · simp only [Bool.not_eq_true] at hb
        have := ih ha2
        simp [List.filter_cons, hb]
        omega

/-- An under-`min_size` slot node names a slot of the pool. -/
theorem removeOf_mem_pool {parts : List Str} {edges : List (Str × Slot)}
    {f : Str → Str → Nat} {pool : List (Slot × List Str)} {minSize : Int}
    {sn : Str} (h : sn ∈ removeOf parts edges f (snsOf pool) minSize) :
    ∃ e ∈ pool, slot_to_str e.1 = sn := by
  have h1 : sn ∈ snsOf pool :=
    (List.mem_filter.mp (List.mem_filter.mp h).1).1
  unfold snsOf at h1
  have h2 := List.mem_dedup.mp h1
  obtain ⟨e, he, hstr⟩ := List.mem_map.mp h2
  exact ⟨e, he, hstr⟩

theorem sum_pos_mem {α : Type} {l : List α} {g : α → Nat}
    (h : (l.map g).sum ≠ 0) : ∃ x ∈ l, 0 < g x := by
  induction l with
  | nil => simp at h
  | cons a l ih =>
    simp only [List.map_cons, List.sum_cons] at h
    by_cases hga : g a = 0
    · rw [hga] at h
      obtain ⟨x, hx, hgx⟩ := ih (by omega)
      exact ⟨x, by simp [hx], hgx⟩
    · exact ⟨a, by simp, by omega⟩

theorem mem_le_sum {l : List Nat} {x : Nat} (h : x ∈ l) : x ≤ l.sum := by
  induction l with
  | nil => exact absurd h (by simp)
  | cons a l ih =>
    rcases List.mem_cons.mp h with rfl | h2
    · simp
    · simp only [List.sum_cons]
      have := ih h2
      omega

/-- Full case analysis of one iteration from a pool whose edges are
buildable (no bare-int unpacking) and whose slot keys round-trip. -/
theorem stepFn_cases {st : SchedState} {cfg : Config} {maxF mcf}
    {pool : List (Slot × List Str)}
    (hnb : (poolEdges st pool).isSome = true)
    (hrt : ∀ e ∈ pool, str_to_slot (slot_to_str e.1) = some e.1)
    (hfe : ∀ edges, poolEdges st pool = some edges →
      FeasibleF (partsOf st) (snsOf pool) edges cfg.max_size (maxF pool)
        (mcf pool (maxF pool))) :
    stepFn st cfg maxF mcf pool = .done [] .flowZero ∨
    (∃ m, stepFn st cfg maxF mcf pool = .done m .solved ∧ m ≠ []) ∨
    stepFn st cfg maxF mcf pool = .done [] .exhausted ∨
    (∃ pool2, stepFn st cfg maxF mcf pool = .next pool2 ∧
      pool2.length < pool.length) := by
  cases hpe : poolEdges st pool with
  | none => rw [hpe] at hnb; simp at hnb
  | some edges =>
    have hF := hfe edges hpe
    unfold stepFn
    rw [hpe]
    dsimp only
    by_cases hF0 : maxF pool = 0
    · rw [if_pos hF0]
      exact Or.inl rfl
    · rw [if_neg hF0]
      set f := mcf pool (maxF pool) with hfdef
      set parts := partsOf st with hpartsdef
      set sns := snsOf pool with hsnsdef
      by_cases hrem : (removeOf parts edges f sns cfg.min_size).isEmpty = true
      · rw [if_pos hrem]
        refine Or.inr (Or.inl ⟨_, rfl, ?_⟩)
        -- the success mapping is nonempty: some slot node carries flow
        have hsum : (parts.map (rowSum sns edges f)).sum = maxF pool := hF.2.2.2
        have hmain : ∃ sn ∈ sns,
            0 < colSum parts edges f sn ∧
            cfg.min_size ≤ ((membersOf parts edges f sn).length : Int) := by
          obtain ⟨p, hp, hrow⟩ := sum_pos_mem (g := rowSum sns edges f)
            (by rw [hsum]; exact hF0)
          obtain ⟨sn, hsnf, hfpos⟩ := sum_pos_mem (g := fun sn => f p sn)
            (l := sns.filter (fun sn => hasEdge edges p sn))
            (by unfold rowSum at hrow; omega)
          obtain ⟨hsn, hedge⟩ := List.mem_filter.mp hsnf
          have hcol : 0 < colSum parts edges f sn := by
            have hpf : p ∈ parts.filter (fun q => hasEdge edges q sn) :=
              List.mem_filter.mpr ⟨hp, hedge⟩
            have : f p sn ≤ colSum parts edges f sn :=
              mem_le_sum (List.mem_map.mpr ⟨p, hpf, rfl⟩)
            omega
          refine ⟨sn, hsn, hcol, ?_⟩
          -- not removable, so its count reaches min_size; counts ≤ members
          have hact : sn ∈ activeOf parts edges f sns :=
            List.mem_filter.mpr ⟨hsn, by simpa using hcol⟩
          have hnotrem : ¬ ((colSum parts edges f sn : Int) < cfg.min_size) := by
            intro hlt
            have : sn ∈ removeOf parts edges f sns cfg.min_size :=
              List.mem_filter.mpr ⟨hact, by simpa using hlt⟩
            rw [List.isEmpty_iff] at hrem
            rw [hrem] at this
            exact absurd this (by simp)
          have hcap : ∀ q ∈ parts, f q sn ≤ 1 := fun q hq => hF.1 q hq sn hsn
          have hlen : colSum parts edges f sn ≤
              (membersOf parts edges f sn).length :=
            sum_le_length_filter_pos parts (fun q => hasEdge edges q sn)
              (fun q => f q sn) hcap
          have hlen2 : (colSum parts edges f sn : Int) ≤
              ((membersOf parts edges f sn).length : Int) := by
            exact_mod_cast hlen
          omega
        obtain ⟨sn, hsn, hcol, hmin⟩ := hmain
        have hact : sn ∈ activeOf parts edges f sns :=
          List.mem_filter.mpr ⟨hsn, by simpa using hcol⟩
        have hmem : (sn, membersOf parts edges f sn) ∈
            finalOf parts edges f sns cfg.min_size := by
          unfold finalOf
          rw [mem_sortFinal]
          exact List.mem_map.mpr ⟨sn,
            List.mem_filter.mpr ⟨hact, by simpa using hmin⟩, rfl⟩
        intro hempty
        rw [hempty] at hmem
        exact absurd hmem (by simp)
      · rw [if_neg hrem]
        -- removal round: every removed string parses back to a pool key
        have hall : ∀ sn ∈ removeOf parts edges f sns cfg.min_size,
            (str_to_slot sn).isSome = true := by
          intro sn hsnr
          obtain ⟨e, he, hstr⟩ := removeOf_mem_pool hsnr
          rw [← hstr, hrt e he]
          rfl
        obtain ⟨removed, hremoved⟩ := mapM_isSome _ _ hall
        rw [hremoved]
        dsimp only
        have hex : ∃ e ∈ pool, (decide (e.1 ∉ removed)) = false := by
          have hne : removeOf parts edges f sns cfg.min_size ≠ [] := by
            intro hnil
            rw [hnil] at hrem
            exact hrem rfl
          obtain ⟨sn0, hsn0⟩ := List.exists_mem_of_ne_nil _ hne
          obtain ⟨e0, he0, hstr0⟩ := removeOf_mem_pool hsn0
          have hrt0 : str_to_slot sn0 = some e0.1 := by
            rw [← hstr0]; exact hrt e0 he0
          have hin : e0.1 ∈ removed := mapM_mem hremoved hsn0 hrt0
          exact ⟨e0, he0, by simpa using hin⟩
        obtain ⟨e0, he0, hq0⟩ := hex
        have hlt : (pool.filter (fun e => decide (e.1 ∉ removed))).length <
            pool.length := length_filter_lt pool _ e0 he0 hq0
        by_cases hemp : (pool.filter (fun e => decide (e.1 ∉ removed))).isEmpty = true
        · rw [if_pos hemp]
          exact Or.inr (Or.inr (Or.inl rfl))
        · rw [if_neg hemp]
          exact Or.inr (Or.inr (Or.inr ⟨_, rfl, hlt⟩))

/-- The repair loop, from a reachable pool whose slot keys round-trip,
whose edges are buildable, and with sound solver oracles, always returns
`.ok`, and returns a nonempty mapping exactly on the `.solved` exit. -/
theorem loopAux_c6 {st : SchedState} {cfg : Config} {maxF mcf}
    (hs : SolverOK st cfg maxF mcf)
    (hrt : rtPool (candidateSlots st.participant_slots cfg.min_size))
    (hnb : (poolEdges st
      (candidateSlots st.participant_slots cfg.min_size)).isSome = true) :
    ∀ n pool,
      List.Sublist pool (candidateSlots st.participant_slots cfg.min_size) →
      pool.length < n →
      ∃ m k, loopAux st cfg maxF mcf n pool = .ok (m, k) ∧
        (m = [] ↔ k ≠ ExitKind.solved) := by
  intro n
  induction n with
  | zero => intro pool hsub hlen; omega
  | succ n ih =>
    intro pool hsub hlen
    have hnb2 := poolEdges_isSome_mono hsub hnb
    have hrt2 : ∀ e ∈ pool, str_to_slot (slot_to_str e.1) = some e.1 :=
      fun e he => hrt e (hsub.subset he)
    have hfe : ∀ edges, poolEdges st pool = some edges →
        FeasibleF (partsOf st) (snsOf pool) edges cfg.max_size (maxF pool)
          (mcf pool (maxF pool)) :=
      fun edges hpe => solverOK_feasible hs hsub hpe
    rcases stepFn_cases hnb2 hrt2 hfe with h | ⟨m, h, hne⟩ | h | ⟨pool2, h, hlt⟩
    · exact ⟨[], .flowZero, by rw [loopAux, h], by decide⟩
    · refine ⟨m, .solved, by rw [loopAux, h], ?_⟩
      constructor
      · intro hm; exact absurd hm hne
      · intro hk; exact absurd rfl hk
    · exact ⟨[], .exhausted, by rw [loopAux, h], by decide⟩
    · obtain ⟨m, k, hok, hiff⟩ :=
        ih pool2 ((stepFn_next_sublist h).trans hsub) (by omega)
      exact ⟨m, k, by rw [loopAux, h]; exact hok, hiff⟩

/-- C6 (amended): provided the solver oracles meet their contract, every
candidate slot's string round-trips through `str_to_slot`, and every
eligible (person, slot) pair yields a `(wait, tag)` pair (no bare-int
return), `assign_groups` returns normally without raising, and the
returned mapping is empty exactly when the exit is one of: no slot passed
the `min_size` pre-filter, a max-flow value of 0, or the repair loop
removing every remaining candidate slot. -/
theorem c6_no_solution_exits (st : SchedState) (cfg : Config)
    (maxF : List (Slot × List Str) → Nat)
    (mcf : List (Slot × List Str) → Nat → Str → Str → Nat)
    (hs : SolverOK st cfg maxF mcf)
    (hrt : rtPool (candidateSlots st.participant_slots cfg.min_size))
    (hnb : (poolEdges st
      (candidateSlots st.participant_slots cfg.min_size)).isSome = true) :
    ∃ m k, assign_groupsT st cfg maxF mcf = .ok (m, k) ∧
      (m = [] ↔ k ≠ ExitKind.solved) := by
  unfold assign_groupsT
  dsimp only
  by_cases hemp :
      (candidateSlots st.participant_slots cfg.min_size).isEmpty = true
  · rw [if_pos hemp]
    exact ⟨[], .noCandidates, rfl, by decide⟩
  · rw [if_neg hemp]
    exact loopAux_c6 hs hrt hnb _ _ (List.Sublist.refl _) (by omega)

theorem c6_no_solution_exits_witness :
    ∃ m k, assign_groupsT wState wCfg (greedyMaxF wState wCfg)
        (greedyMcf wState wCfg) = .ok (m, k) ∧
      (m = [] ↔ k ≠ ExitKind.solved) :=
  c6_no_solution_exits wState wCfg (greedyMaxF wState wCfg)
    (greedyMcf wState wCfg) (by decide) (by decide) (by decide)

/-- C5: the repair loop does not terminate on every input.  On `ntState`
(reachable data: a schedule day header with a trailing space), with solver
oracles satisfying their contract, the loop exhausts any fuel bound: the
slot strings in `slots_to_remove` parse back to keys absent from the pool,
`pop` removes nothing, and the identical iteration repeats forever —
contradicting the guarantee that the pool strictly shrinks on every
non-terminal iteration. -/
theorem c5_repair_loop_diverges :
    SolverOK ntState ntCfg (greedyMaxF ntState ntCfg)
      (greedyMcf ntState ntCfg) ∧
    (∀ n, loopAux ntState ntCfg (greedyMaxF ntState ntCfg)
      (greedyMcf ntState ntCfg) n
      (candidateSlots ntState.participant_slots ntCfg.min_size) = .fuelOut) ∧
    assign_groups ntState ntCfg (greedyMaxF ntState ntCfg)
      (greedyMcf ntState ntCfg) = .fuelOut := by
  have hstep : stepFn ntState ntCfg (greedyMaxF ntState ntCfg)
      (greedyMcf ntState ntCfg)
      (candidateSlots ntState.participant_slots ntCfg.min_size) =
      .next (candidateSlots ntState.participant_slots ntCfg.min_size) := by
    decide
  have hloop : ∀ n, loopAux ntState ntCfg (greedyMaxF ntState ntCfg)
      (greedyMcf ntState ntCfg) n
      (candidateSlots ntState.participant_slots ntCfg.min_size) = .fuelOut := by
    intro n
    induction n with
    | zero => rfl
    | succ n ih =>
      rw [loopAux, hstep]
      exact ih
  refine ⟨by decide, hloop, ?_⟩
  unfold assign_groups assign_groupsT
  dsimp only
  rw [if_neg (by decide), hloop]

/-- C6 counterexample: with sound solver oracles, `assign_groups` on
`exState` raises (the removal round's `str_to_slot` fails on a day label
containing a space) — it neither returns an empty mapping nor a nonempty
one, so the claimed exhaustive case analysis of `assign_groups` outcomes
is false as stated. -/
theorem c6_crash_counterexample :
    SolverOK exState ntCfg (greedyMaxF exState ntCfg)
      (greedyMcf exState ntCfg) ∧
    assign_groups exState ntCfg (greedyMaxF exState ntCfg)
      (greedyMcf exState ntCfg) = .exn := by
  constructor
  · decide
  · decide

theorem digit_props {c : Char} (h : isDigitCh c) :
    c ≠ ' ' ∧ c ≠ '-' ∧ c ≠ ':' ∧ c ≠ '+' ∧ isWS c = false := by
  unfold isDigitCh at h
  fin_cases h <;> decide

theorem digitChar_isDigit {n : Nat} (h : n < 10) :
    isDigitCh (Char.ofNat (48 + n)) := by
  interval_cases n <;> decide

theorem digitVal_digitChar {n : Nat} (h : n < 10) :
    digitVal (Char.ofNat (48 + n)) = some n := by
  interval_cases n <;> decide

theorem digitsAux_digits :
    ∀ fuel n : Nat, ∀ acc : Str, (∀ c ∈ acc, isDigitCh c) →
      ∀ c ∈ digitsAux fuel n acc, isDigitCh c := by
  intro fuel
  induction fuel with
  | zero => intro n acc hacc c hc; exact hacc c hc
  | succ f ih =>
    intro n acc hacc c hc
    rw [digitsAux] at hc
    by_cases hn : n < 10
    · rw [if_pos hn] at hc
      rcases List.mem_cons.mp hc with rfl | hc2
      · exact digitChar_isDigit hn
      · exact hacc c hc2
    · rw [if_neg hn] at hc
      refine ih (n / 10) _ ?_ c hc
      intro d hd
      rcases List.mem_cons.mp hd with rfl | hd2
      · exact digitChar_isDigit (Nat.mod_lt n (by omega))
      · exact hacc d hd2

theorem natDigits_digits (n : Nat) : ∀ c ∈ natDigits n, isDigitCh c :=
  digitsAux_digits (n + 1) n [] (by simp)

theorem intStr_nonneg {n : Int} (h : 0 ≤ n) : intStr n = natDigits n.toNat := by
  unfold intStr
  rw [if_neg (by omega)]

theorem pad2_eq {n : Int} (h : 0 ≤ n) :
    pad2 n = if (natDigits n.toNat).length < 2 then '0' :: natDigits n.toNat
      else natDigits n.toNat := by
  unfold pad2
  rw [intStr_nonneg h]

theorem pad2_digits {n : Int} (h : 0 ≤ n) : ∀ c ∈ pad2 n, isDigitCh c := by
  intro c hc
  rw [pad2_eq h] at hc
  split at hc
  · rcases List.mem_cons.mp hc with rfl | hc2
    · decide
    · exact natDigits_digits _ c hc2
  · exact natDigits_digits _ c hc

theorem valAux_digitsAux :
    ∀ fuel n : Nat, n < fuel → ∀ (acc : Str) (v : Nat),
      valAux v (digitsAux fuel n acc) = valAux (shiftVal fuel v n) acc := by
  intro fuel
  induction fuel with
  | zero => intro n h; omega
  | succ f ih =>
    intro n hn acc v
    rw [digitsAux, shiftVal]
    by_cases h10 : n < 10
    · rw [if_pos h10, if_pos h10, valAux, digitVal_digitChar h10]
    · rw [if_neg h10, if_neg h10]
      have hdiv : n / 10 < f := by
        have h1 : n / 10 < n := Nat.div_lt_self (by omega) (by omega)
        omega
      rw [ih (n / 10) hdiv, valAux, digitVal_digitChar (Nat.mod_lt n (by omega))]

theorem shiftVal_zero : ∀ fuel n : Nat, n < fuel → shiftVal fuel 0 n = n := by
  intro fuel
  induction fuel with
  | zero => intro n h; omega
  | succ f ih =>
    intro n hn
    rw [shiftVal]
    by_cases h10 : n < 10
    · rw [if_pos h10]
      omega
    · rw [if_neg h10]
      have hdiv : n / 10 < f := by
        have h1 : n / 10 < n := Nat.div_lt_self (by omega) (by omega)
        omega
      rw [ih (n / 10) hdiv]
      omega

theorem valAux_natDigits (n : Nat) : valAux 0 (natDigits n) = some n := by
  unfold natDigits
  rw [valAux_digitsAux (n + 1) n (by omega) [] 0, shiftVal_zero (n + 1) n (by omega)]
  rfl

theorem natDigits_ne_nil (n : Nat) : natDigits n ≠ [] := by
  have haux : ∀ fuel m : Nat, ∀ acc : Str, acc ≠ [] →
      digitsAux fuel m acc ≠ [] := by
    intro fuel
    induction fuel with
    | zero => intro m acc h; exact h
    | succ f ih =>
      intro m acc h
      rw [digitsAux]
      by_cases h10 : m < 10
      · rw [if_pos h10]; simp
      · rw [if_neg h10]
        exact ih (m / 10) _ (by simp)
  unfold natDigits
  rw [digitsAux]
  by_cases h10 : n < 10
  · rw [if_pos h10]; simp
  · rw [if_neg h10]
    exact haux n (n / 10) _ (by simp)

/-- A string of digit characters is untouched by `strip`. -/
theorem pyStrip_of_digits {s : Str} (h : ∀ c ∈ s, isDigitCh c) :
    pyStrip s = s := by
  have hws : ∀ c ∈ s, isWS c = false := fun c hc => (digit_props (h c hc)).2.2.2.2
  have h1 : s.dropWhile isWS = s := by
    cases s with
    | nil => rfl
    | cons c cs =>
      rw [List.dropWhile_cons, hws c (by simp)]
      simp
  rw [pyStrip, h1]
  have h2 : s.reverse.dropWhile isWS = s.reverse := by
    cases hrev : s.reverse with
    | nil => rfl
    | cons c cs =>
      rw [List.dropWhile_cons, hws c (by rw [← List.mem_reverse, hrev]; simp)]
      simp
  rw [h2, List.reverse_reverse]

/-- `pyInt` inverts the width-2 zero-padded rendering of a nonnegative
int. -/
theorem pyInt_pad2 {n : Int} (h : 0 ≤ n) : pyInt (pad2 n) = some n := by
  have hdig := pad2_digits h
  have hne : pad2 n ≠ [] := by
    rw [pad2_eq h]
    split
    · simp
    · exact natDigits_ne_nil _
  have hval : digitsVal (pad2 n) = some n.toNat := by
    rw [pad2_eq h]
    split
    · show digitsVal ('0' :: natDigits n.toNat) = some n.toNat
      have hstep : digitsVal ('0' :: natDigits n.toNat) =
          valAux (10 * 0 + 0) (natDigits n.toNat) := rfl
      rw [hstep]
      simpa using valAux_natDigits n.toNat
    · cases hnd : natDigits n.toNat with
      | nil => exact absurd hnd (natDigits_ne_nil _)
      | cons c cs =>
        have hv := valAux_natDigits n.toNat
        rw [hnd] at hv
        exact hv
  unfold pyInt
  rw [pyStrip_of_digits hdig]
  cases hp : pad2 n with
  | nil => exact absurd hp hne
  | cons c cs =>
    have hc : isDigitCh c := hdig c (by rw [hp]; simp)
    dsimp only
    rw [if_neg (digit_props hc).2.1, if_neg (digit_props hc).2.2.2.1]
    rw [← hp, hval]
    simp [Int.toNat_of_nonneg h]

theorem splitFirst_of_append {xs ys : Str} (h : ' ' ∉ xs) :
    splitFirst ' ' (xs ++ ' ' :: ys) = some (xs, ys) := by
  induction xs with
  | nil => simp [splitFirst]
  | cons c cs ih =>
    have hc : ¬ c = ' ' := fun hcc => h (by rw [hcc]; simp)
    rw [List.cons_append, splitFirst, if_neg hc,
      ih (fun hmem => h (List.mem_cons_of_mem c hmem))]
    rfl

theorem pySplit_no_sep {sep : Char} {xs : Str} (h : sep ∉ xs) :
    pySplit sep xs = [xs] := by
  induction xs with
  | nil => rfl
  | cons c cs ih =>
    have hc : ¬ c = sep := fun hcc => h (by rw [hcc]; simp)
    rw [pySplit, if_neg hc, ih (fun hmem => h (List.mem_cons_of_mem c hmem))]

theorem pySplit_ne_nil (sep : Char) (s : Str) : pySplit sep s ≠ [] := by
  induction s with
  | nil => simp [pySplit]
  | cons c cs ih =>
    rw [pySplit]
    by_cases hc : c = sep
    · rw [if_pos hc]; simp
    · rw [if_neg hc]
      cases hsp : pySplit sep cs with
      | nil => exact absurd hsp ih
      | cons r rs => simp

theorem pySplit_append {sep : Char} {xs ys : Str} (h : sep ∉ xs) :
    pySplit sep (xs ++ sep :: ys) = xs :: pySplit sep ys := by
  induction xs with
  | nil =>
    rw [List.nil_append, pySplit, if_pos rfl]
  | cons c cs ih =>
    have hc : ¬ c = sep := fun hcc => h (by rw [hcc]; simp)
    rw [List.cons_append, pySplit, if_neg hc,
      ih (fun hmem => h (List.mem_cons_of_mem c hmem))]

/-- C7: for every slot whose day label contains no space and with
`0 ≤ start < end`, parsing the formatted slot string is the identity. -/
theorem c7_slot_roundtrip (day : Str) (a b : Int) (hday : ' ' ∉ day)
    (ha : 0 ≤ a) (hab : a < b) :
    str_to_slot (slot_to_str (day, a, b)) = some (day, a, b) := by
  have hb : 0 ≤ b := by omega
  have hq1 : 0 ≤ a.ediv 60 := Int.ediv_nonneg ha (by norm_num)
  have hr1 : 0 ≤ a.emod 60 := Int.emod_nonneg a (by norm_num)
  have hq2 : 0 ≤ b.ediv 60 := Int.ediv_nonneg hb (by norm_num)
  have hr2 : 0 ≤ b.emod 60 := Int.emod_nonneg b (by norm_num)
  have hx1 : ∀ c ∈ pad2 (a.ediv 60) ++ ':' :: pad2 (a.emod 60),
      isDigitCh c ∨ c = ':' := by
    intro c hc
    rcases List.mem_append.mp hc with hc1 | hc2
    · exact Or.inl (pad2_digits hq1 c hc1)
    · rcases List.mem_cons.mp hc2 with rfl | hc3
      · exact Or.inr rfl
      · exact Or.inl (pad2_digits hr1 c hc3)
  have hx2 : ∀ c ∈ pad2 (b.ediv 60) ++ ':' :: pad2 (b.emod 60),
      isDigitCh c ∨ c = ':' := by
    intro c hc
    rcases List.mem_append.mp hc with hc1 | hc2
    · exact Or.inl (pad2_digits hq2 c hc1)
    · rcases List.mem_cons.mp hc2 with rfl | hc3
      · exact Or.inr rfl
      · exact Or.inl (pad2_digits hr2 c hc3)
  have hnsp : ∀ (xs : Str), (∀ c ∈ xs, isDigitCh c ∨ c = ':') → ' ' ∉ xs := by
    intro xs hxs hmem
    rcases hxs ' ' hmem with hd | hcol
    · exact (digit_props hd).1 rfl
    · exact absurd hcol (by decide)
  have hnmi : ∀ (xs : Str), (∀ c ∈ xs, isDigitCh c ∨ c = ':') → '-' ∉ xs := by
    intro xs hxs hmem
    rcases hxs '-' hmem with hd | hcol
    · exact (digit_props hd).2.1 rfl
    · exact absurd hcol (by decide)
  have hT : slot_to_str (day, a, b) = day ++ ' ' ::
      ((pad2 (a.ediv 60) ++ ':' :: pad2 (a.emod 60)) ++ '-' ::
        (pad2 (b.ediv 60) ++ ':' :: pad2 (b.emod 60))) := by
    unfold slot_to_str
    simp
  rw [hT]
  unfold str_to_slot
  rw [splitFirst_of_append hday]
  rw [Option.bind_eq_bind, Option.some_bind]
  dsimp only
  have hassoc : (pad2 (a.ediv 60) ++ ':' :: pad2 (a.emod 60) ++ '-' ::
      (pad2 (b.ediv 60) ++ ':' :: pad2 (b.emod 60)) : Str) =
      (pad2 (a.ediv 60) ++ ':' :: pad2 (a.emod 60)) ++ '-' ::
      (pad2 (b.ediv 60) ++ ':' :: pad2 (b.emod 60)) := by
    simp [List.append_assoc]
  rw [hassoc]
  rw [pySplit_append (hnmi _ hx1)]
  rw [pySplit_no_sep (hnmi _ hx2)]
  dsimp only
  have hs1 : pySplit ':' (pad2 (a.ediv 60) ++ ':' :: pad2 (a.emod 60)) =
      [pad2 (a.ediv 60), pad2 (a.emod 60)] := by
    rw [pySplit_append (fun hmem => ((digit_props (pad2_digits hq1 _ hmem)).2.2.1) rfl)]
    rw [pySplit_no_sep (fun hmem => ((digit_props (pad2_digits hr1 _ hmem)).2.2.1) rfl)]
  have hs2 : pySplit ':' (pad2 (b.ediv 60) ++ ':' :: pad2 (b.emod 60)) =
      [pad2 (b.ediv 60), pad2 (b.emod 60)] := by
    rw [pySplit_append (fun hmem => ((digit_props (pad2_digits hq2 _ hmem)).2.2.1) rfl)]
    rw [pySplit_no_sep (fun hmem => ((digit_props (pad2_digits hr2 _ hmem)).2.2.1) rfl)]
  rw [hs1, hs2]
  dsimp only
  rw [pyInt_pad2 hq1, pyInt_pad2 hr1, pyInt_pad2 hq2, pyInt_pad2 hr2]
  simp only [Option.bind_eq_bind, Option.some_bind, Option.pure_def,
    Option.some.injEq, Prod.mk.injEq]
  refine ⟨trivial, ?_, ?_⟩
  · have hda : 60 * (a.ediv 60) + a.emod 60 = a := Int.ediv_add_emod a 60
    linarith
  · have hdb : 60 * (b.ediv 60) + b.emod 60 = b := Int.ediv_add_emod b 60
    linarith

theorem c7_slot_roundtrip_witness :
    str_to_slot (slot_to_str (wDay, 540, 600)) = some (wDay, 540, 600) :=
  c7_slot_roundtrip wDay 540 600 (by decide) (by decide) (by decide)

/-- C4 (amended): with a recorded commitment `(cs, ce)` on the slot's day,
`compute_wait_minutes` returns `cs − slot_end` tagged `before` whenever
`slot_end ≤ cs`; `slot_start − ce` tagged `after` whenever `slot_end > cs`
and `slot_start ≥ ce` (the `elif` gives the before-branch priority);
and the sentinel `10^6` tagged `conflict` otherwise; pairs whose wait
reaches the sentinel are never edges of the flow networks. -/
theorem c4_wait_cost_cases (st : SchedState) (p day : Str)
    (ss se cs ce : Int) (times : List (Str × Int × Int))
    (h1 : alGet p st.class_times = some times)
    (h2 : alGet day times = some (cs, ce)) :
    (se ≤ cs →
      compute_wait_minutes st p (day, ss, se) = .pair (cs - se) .before) ∧
    (¬ se ≤ cs → ce ≤ ss →
      compute_wait_minutes st p (day, ss, se) = .pair (ss - ce) .after) ∧
    (¬ se ≤ cs → ¬ ce ≤ ss →
      compute_wait_minutes st p (day, ss, se) =
        .pair LARGE_PENALTY .conflict) ∧
    (∀ pool edges w t, poolEdges st pool = some edges →
      compute_wait_minutes st p (day, ss, se) = .pair w t →
      LARGE_PENALTY ≤ w → (p, ((day, ss, se) : Slot)) ∉ edges) := by
  have hcw : compute_wait_minutes st p (day, ss, se) =
      (if se ≤ cs then WaitRet.pair (cs - se) .before
       else if ce ≤ ss then WaitRet.pair (ss - ce) .after
       else WaitRet.pair LARGE_PENALTY .conflict) := by
    unfold compute_wait_minutes
    rw [h1]
    dsimp only
    rw [h2]
  refine ⟨?_, ?_, ?_, ?_⟩
  · intro hbef
    rw [hcw, if_pos hbef]
  · intro hbef haft
    rw [hcw, if_neg hbef, if_pos haft]
  · intro hbef haft
    rw [hcw, if_neg hbef, if_neg haft]
  · intro pool edges w t hpe hw hge hmem
    obtain ⟨cand, hc, hm, w2, t2, hw2, hlt⟩ := (poolEdges_mem hpe).mp hmem
    have heq := hw.symm.trans hw2
    injection heq with e1 e2
    rw [← e1] at hlt
    linarith

/-- C4 counterexample: for the commitment `(cs, ce) = (600, 0)` and the
slot `08:00-09:00`, the claim's second clause applies
(`slot_start = 480 ≥ ce = 0`) and demands the value `480 − 0 = 480`, but
the function's `if` gives the before-branch priority and returns `60`. -/
theorem c4_overlap_counterexample :
    alGet ntP1 invState.class_times = some [(['D'], (600 : Int), (0 : Int))] ∧
    (0 : Int) ≤ 480 ∧
    compute_wait_minutes invState ntP1 (['D'], 480, 540) =
      .pair 60 .before ∧
    compute_wait_minutes invState ntP1 (['D'], 480, 540) ≠
      .pair (480 - 0) .after ∧
    (60 : Int) ≠ 480 - 0 := by
  decide

theorem c4_wait_cost_cases_witness :
    compute_wait_minutes regState ntP1 (['D'], 480, 540) =
      .pair (600 - 540) .before :=
  (c4_wait_cost_cases regState ntP1 ['D'] 480 540 600 660
    [(['D'], 600, 660)] (by decide) (by decide)).1 (by norm_num)

/-- C8 (amended): `parse_time` succeeds exactly when stripping and
splitting on `':'` yields exactly two `int()`-parseable fields, returning
`60*h + m`; it performs no range validation on the hour or minute
fields. -/
theorem c8_parse_time_spec (s : Str) (r : Int) :
    parse_time s = some r ↔
      ∃ hs ms hv mv, pySplit ':' (pyStrip s) = [hs, ms] ∧
        pyInt hs = some hv ∧ pyInt ms = some mv ∧ r = 60 * hv + mv := by
  unfold parse_time
  cases hsp : pySplit ':' (pyStrip s) with
  | nil =>
    constructor
    · intro h; exact absurd h (by simp)
    · rintro ⟨hs, ms, hv, mv, heq, _⟩
      exact absurd heq (by simp)
  | cons x xs =>
    cases xs with
    | nil =>
      constructor
      · intro h; exact absurd h (by simp)
      · rintro ⟨hs, ms, hv, mv, heq, _⟩
        exact absurd heq (by simp)
    | cons y ys =>
      cases ys with
      | nil =>
        constructor
        · intro h
          simp only [Option.bind_eq_bind, Option.bind_eq_some,
            Option.pure_def, Option.some.injEq] at h
          obtain ⟨hv, hhv, mv, hmv, hr⟩ := h
          exact ⟨x, y, hv, mv, rfl, hhv, hmv, hr.symm⟩
        · rintro ⟨hs, ms, hv, mv, heq, hhv, hmv, hr⟩
          injection heq with e1 e2
          injection e2 with e2 e3
          subst e1
          subst e2
          simp only [Option.bind_eq_bind, Option.bind_eq_some,
            Option.pure_def, Option.some.injEq]
          exact ⟨hv, hhv, mv, hmv, hr.symm⟩
      | cons z zs =>
        constructor
        · intro h; exact absurd h (by simp)
        · rintro ⟨hs, ms, hv, mv, heq, _⟩
          exact absurd heq (by simp)

/-- C8 counterexample: the claim says `parse_time` fails when the hours
field is outside [0,23] or the minutes field outside [0,59]; the code
accepts both `"24:00"` and `"12:75"`. -/
theorem c8_no_range_validation_counterexample :
    parse_time "24:00".data = some 1440 ∧ ¬ ((24 : Int) ≤ 23) ∧
    parse_time "12:75".data = some 795 ∧ ¬ ((75 : Int) ≤ 59) := by
  decide

theorem genAux_mem {day : Str} {L S endm : Int} (hS : 0 < S) :
    ∀ (fuel : Nat) (t : Int), ∀ s ∈ genAux day L S endm fuel t,
      s.1 = day ∧ t ≤ s.2.1 ∧ s.2.2 = s.2.1 + L ∧ s.2.2 ≤ endm := by
  intro fuel
  induction fuel with
  | zero => intro t s hs; exact absurd hs (by simp [genAux])
  | succ f ih =>
    intro t s hs
    rw [genAux] at hs
    split at hs
    next hg =>
      rcases List.mem_cons.mp hs with rfl | hs2
      · exact ⟨rfl, le_refl t, rfl, hg⟩
      · obtain ⟨h1, h2, h3, h4⟩ := ih (t + S) s hs2
        exact ⟨h1, by omega, h3, h4⟩
    next hg => exact absurd hs (by simp)

theorem genAux_head {day : Str} {L S endm : Int} {fuel : Nat} {t : Int} :
    genAux day L S endm fuel t = [] ∨
    ∃ rest, genAux day L S endm fuel t = (day, t, t + L) :: rest := by
  cases fuel with
  | zero => exact Or.inl rfl
  | succ f =>
    rw [genAux]
    by_cases hg : t + L ≤ endm
    · rw [if_pos hg]
      exact Or.inr ⟨_, rfl⟩
    · rw [if_neg hg]
      exact Or.inl rfl

theorem genAux_chain {day : Str} {L S endm : Int} :
    ∀ (fuel : Nat) (t : Int),
      List.Chain' (fun x y : Slot => y.2.1 = x.2.1 + S)
        (genAux day L S endm fuel t) := by
  intro fuel
  induction fuel with
  | zero => intro t; simp [genAux]
  | succ f ih =>
    intro t
    rw [genAux]
    split
    · rcases @genAux_head day L S endm f (t + S) with hnil | ⟨rest, hcons⟩
      · rw [hnil]
        simp
      · rw [hcons]
        refine List.chain'_cons.mpr ⟨rfl, ?_⟩
        rw [← hcons]
        exact ih (t + S)
    · simp

theorem genAux_nodup {day : Str} {L S endm : Int} (hS : 0 < S) :
    ∀ (fuel : Nat) (t : Int), (genAux day L S endm fuel t).Nodup := by
  intro fuel
  induction fuel with
  | zero => intro t; simp [genAux]
  | succ f ih =>
    intro t
    rw [genAux]
    split
    · rw [List.nodup_cons]
      refine ⟨?_, ih (t + S)⟩
      intro hmem
      have := (genAux_mem hS f (t + S) _ hmem).2.1
      simp only at this
      omega
    · simp

/-- Everything `generate_slots` guarantees about its output when the step
is positive (for `step ≤ 0` the source loop does not terminate). -/
theorem generate_slots_spec {cfg : Config} {day : Str} {s e : Int}
    {B : List Slot} (hS : 0 < cfg.step)
    (hgen : generate_slots cfg day s e = some B) :
    (∀ x ∈ B, x.1 = day ∧ s ≤ x.2.1 ∧ x.2.2 = x.2.1 + cfg.slot_len ∧
      x.2.2 ≤ e) ∧
    List.Chain' (fun x y : Slot => y.2.1 = x.2.1 + cfg.step) B ∧
    B.Nodup := by
  unfold generate_slots at hgen
  cases hpt : parse_time cfg.earliest_hour with
  | none => rw [hpt] at hgen; exact absurd hgen (by simp)
  | some em2 =>
    rw [hpt] at hgen
    simp only [Option.bind_eq_bind, Option.some_bind, Option.pure_def,
      Option.some.injEq] at hgen
    subst hgen
    refine ⟨?_, genAux_chain _ _, genAux_nodup hS _ _⟩
    intro x hx
    obtain ⟨h1, h2, h3, h4⟩ := genAux_mem hS _ _ x hx
    exact ⟨h1, by omega, h3, h4⟩

/-- C10 (amended): for a commitment `cs ≤ ce` and positive slot length and
step, the per-day candidate list splits as before-slots (ending at or
before `cs`) followed by after-slots (starting at or after `ce`); within
each part consecutive start times differ by exactly the step, and the
whole list has no duplicates. -/
theorem c10_day_slots_structure (cfg : Config) (em lm : Int) (day : Str)
    (cs ce : Int) (l : List Slot) (hL : 0 < cfg.slot_len)
    (hS : 0 < cfg.step) (hce : cs ≤ ce)
    (hd : daySlots cfg em lm day cs ce = some l) :
    ∃ B A, l = B ++ A ∧
      (∀ s ∈ B, s.2.2 ≤ cs) ∧ (∀ s ∈ A, ce ≤ s.2.1) ∧
      List.Chain' (fun x y : Slot => y.2.1 = x.2.1 + cfg.step) B ∧
      List.Chain' (fun x y : Slot => y.2.1 = x.2.1 + cfg.step) A ∧
      l.Nodup := by
  unfold daySlots at hd
  cases hB : (if em < cs then generate_slots cfg day em cs
      else pure ([] : List Slot)) with
  | none => rw [hB] at hd; exact absurd hd (by simp)
  | some B =>
  rw [hB, Option.some_bind] at hd
  cases hA : (if ce < lm then generate_slots cfg day ce lm
      else pure ([] : List Slot)) with
  | none => rw [hA] at hd; exact absurd hd (by simp)
  | some A =>
  rw [hA, Option.some_bind] at hd
  have hl : B ++ A = l := by simpa using hd
  subst hl
  have hBspec : (∀ x ∈ B, x.2.2 ≤ cs ∧ x.2.2 = x.2.1 + cfg.slot_len) ∧
      List.Chain' (fun x y : Slot => y.2.1 = x.2.1 + cfg.step) B ∧
      B.Nodup := by
    by_cases hcase : em < cs
    · rw [if_pos hcase] at hB
      obtain ⟨hm, hc, hn⟩ := generate_slots_spec hS hB
      exact ⟨fun x hx => ⟨(hm x hx).2.2.2, (hm x hx).2.2.1⟩, hc, hn⟩
    · rw [if_neg hcase] at hB
      simp only [Option.pure_def, Option.some.injEq] at hB
      subst hB
      simp
  have hAspec : (∀ x ∈ A, ce ≤ x.2.1) ∧
      List.Chain' (fun x y : Slot => y.2.1 = x.2.1 + cfg.step) A ∧
      A.Nodup := by
    by_cases hcase : ce < lm
    · rw [if_pos hcase] at hA
      obtain ⟨hm, hc, hn⟩ := generate_slots_spec hS hA
      exact ⟨fun x hx => (hm x hx).2.1, hc, hn⟩
    · rw [if_neg hcase] at hA
      simp only [Option.pure_def, Option.some.injEq] at hA
      subst hA
      simp
  refine ⟨B, A, rfl, fun s hs => (hBspec.1 s hs).1, hAspec.1,
    hBspec.2.1, hAspec.2.1, ?_⟩
  rw [List.nodup_append]
  refine ⟨hBspec.2.2, hAspec.2.2, ?_⟩
  intro s hsB hsA
  have h1 := hBspec.1 s hsB
  have h2 := hAspec.1 s hsA
  omega

/-- C10 counterexample: with `slot_len = 0` (the constructor accepts it)
and the commitment `08:20-08:20` (`cs = ce = 500`), the before-sequence
ends with `(D, 500, 500)` and the after-sequence starts with it, so the
candidate slot list built by `build_participant_slots` contains that slot
twice — the claim's duplicate-freeness fails without a positivity
assumption on the slot length. -/
theorem c10_duplicate_counterexample :
    build_participant_slots c10Cfg c10Sched c10Roster = some c10State ∧
    (500 : Int) ≤ 500 ∧
    ¬ ((alGet "A B 1A".data c10State.participant_slots).getD []).Nodup := by
  decide

theorem c10_day_slots_structure_witness :
    ∃ B A, (daySlots wCfg 480 480 wDay 600 660).getD [] = B ++ A ∧
      (∀ s ∈ B, s.2.2 ≤ (600 : Int)) ∧ (∀ s ∈ A, (660 : Int) ≤ s.2.1) ∧
      List.Chain' (fun x y : Slot => y.2.1 = x.2.1 + wCfg.step) B ∧
      List.Chain' (fun x y : Slot => y.2.1 = x.2.1 + wCfg.step) A ∧
      ((daySlots wCfg 480 480 wDay 600 660).getD []).Nodup :=
  c10_day_slots_structure wCfg 480 480 wDay 600 660
    ((daySlots wCfg 480 480 wDay 600 660).getD []) (by decide) (by decide)
    (by decide) (by decide)

theorem alGet_alSet {α : Type} (k k2 : Str) (v : α) (l : List (Str × α)) :
    alGet k (alSet k2 v l) = if k2 = k then some v else alGet k l := by
  induction l with
  | nil => rfl
  | cons e rest ih =>
    obtain ⟨k3, v3⟩ := e
    by_cases h3 : k3 = k2
    · subst h3
      by_cases h : k3 = k
      · simp [alSet, alGet, h]
      · simp [alSet, alGet, h]
    · rw [alSet, if_neg h3, alGet]
      by_cases h : k3 = k
      · subst h
        have : ¬ k2 = k3 := fun hc => h3 hc.symm
        simp [alGet, this]
      · rw [if_neg h, ih, alGet, if_neg h]

theorem alGet_mem {α : Type} {k : Str} {v : α} {l : List (Str × α)}
    (h : alGet k l = some v) : (k, v) ∈ l := by
  induction l with
  | nil => exact absurd h (by simp [alGet])
  | cons e rest ih =>
    obtain ⟨k2, v2⟩ := e
    rw [alGet] at h
    by_cases h2 : k2 = k
    · rw [if_pos h2] at h
      simp only [Option.some.injEq] at h
      subst h2
      subst h
      simp
    · rw [if_neg h2] at h
      exact List.mem_cons_of_mem _ (ih h)

theorem alGet_of_mem_nodup {α : Type} {k : Str} {v : α}
    {l : List (Str × α)} (hm : (k, v) ∈ l)
    (hnd : (l.map Prod.fst).Nodup) : alGet k l = some v := by
  induction l with
  | nil => exact absurd hm (by simp)
  | cons e rest ih =>
    obtain ⟨k2, v2⟩ := e
    rw [List.map_cons, List.nodup_cons] at hnd
    rcases List.mem_cons.mp hm with heq | hm2
    · injection heq with e1 e2
      subst e1
      subst e2
      simp [alGet]
    · rw [alGet]
      by_cases h2 : k2 = k
      · subst h2
        exact absurd (List.mem_map.mpr ⟨(k2, v), hm2, rfl⟩) hnd.1
      · rw [if_neg h2]
        exact ih hm2 hnd.2

theorem alSet_keys_sub {α : Type} (k : Str) (v : α) (l : List (Str × α)) :
    ∀ x ∈ (alSet k v l).map Prod.fst, x ∈ l.map Prod.fst ∨ x = k := by
  induction l with
  | nil =>
    intro x hx
    rw [alSet, List.map_cons] at hx
    rcases List.mem_cons.mp hx with rfl | hx2
    · exact Or.inr rfl
    · exact absurd hx2 (by simp)
  | cons e rest ih =>
    obtain ⟨k2, v2⟩ := e
    intro x hx
    rw [alSet] at hx
    by_cases h2 : k2 = k
    · rw [if_pos h2, List.map_cons] at hx
      rcases List.mem_cons.mp hx with rfl | hx2
      · exact Or.inr rfl
      · exact Or.inl (by rw [List.map_cons]; exact List.mem_cons_of_mem _ hx2)
    · rw [if_neg h2, List.map_cons] at hx
      rcases List.mem_cons.mp hx with rfl | hx2
      · exact Or.inl (by rw [List.map_cons]; exact List.mem_cons_self _ _)
      · rcases ih x hx2 with h | h
        · exact Or.inl (by rw [List.map_cons]; exact List.mem_cons_of_mem _ h)
        · exact Or.inr h

theorem alSet_keys_nodup {α : Type} (k : Str) (v : α)
    {l : List (Str × α)} (hnd : (l.map Prod.fst).Nodup) :
    ((alSet k v l).map Prod.fst).Nodup := by
  induction l with
  | nil => simp [alSet]
  | cons e rest ih =>
    obtain ⟨k2, v2⟩ := e
    rw [List.map_cons, List.nodup_cons] at hnd
    rw [alSet]
    by_cases h2 : k2 = k
    · subst h2
      rw [if_pos rfl, List.map_cons, List.nodup_cons]
      exact hnd
    · rw [if_neg h2, List.map_cons, List.nodup_cons]
      refine ⟨?_, ih hnd.2⟩
      intro hmem
      rcases alSet_keys_sub k v rest k2 hmem with h | h
      · exact hnd.1 h
      · exact h2 h

/-- Per-slot facts guaranteed by `daySlots`. -/
theorem daySlots_mem_spec {cfg : Config} {em lm : Int} {day : Str}
    {cs ce : Int} {l : List Slot} (hS : 0 < cfg.step)
    (hd : daySlots cfg em lm day cs ce = some l) :
    ∀ s ∈ l, s.1 = day ∧ (s.2.2 ≤ cs ∨ ce ≤ s.2.1) := by
  unfold daySlots at hd
  cases hB : (if em < cs then generate_slots cfg day em cs
      else pure ([] : List Slot)) with
  | none => rw [hB] at hd; exact absurd hd (by simp)
  | some B =>
  rw [hB, Option.some_bind] at hd
  cases hA : (if ce < lm then generate_slots cfg day ce lm
      else pure ([] : List Slot)) with
  | none => rw [hA] at hd; exact absurd hd (by simp)
  | some A =>
  rw [hA, Option.some_bind] at hd
  have hl : B ++ A = l := by simpa using hd
  subst hl
  intro s hs
  rcases List.mem_append.mp hs with hsB | hsA
  · by_cases hcase : em < cs
    · rw [if_pos hcase] at hB
      obtain ⟨hm, _, _⟩ := generate_slots_spec hS hB
      exact ⟨(hm s hsB).1, Or.inl (hm s hsB).2.2.2⟩
    · rw [if_neg hcase] at hB
      simp only [Option.pure_def, Option.some.injEq] at hB
      subst hB
      exact absurd hsB (by simp)
  · by_cases hcase : ce < lm
    · rw [if_pos hcase] at hA
      obtain ⟨hm, _, _⟩ := generate_slots_spec hS hA
      exact ⟨(hm s hsA).1, Or.inr (hm s hsA).2.1⟩
    · rw [if_neg hcase] at hA
      simp only [Option.pure_def, Option.some.injEq] at hA
      subst hA
      exact absurd hsA (by simp)

/-- The per-day loop records, for each produced slot, a commitment entry
for the slot's day that the slot does not overlap. -/
theorem processDays_spec {cfg : Config} {em lm : Int} (hS : 0 < cfg.step) :
    ∀ (days : List (Str × Str)) (cts : List (Str × Int × Int))
      (slots : List Slot), (days.map Prod.fst).Nodup →
      processDays cfg em lm days = some (cts, slots) →
      (∀ x ∈ cts, x.1 ∈ days.map Prod.fst) ∧
      (∀ s ∈ slots, ∃ cs ce, alGet s.1 cts = some (cs, ce) ∧
        (s.2.2 ≤ cs ∨ ce ≤ s.2.1)) := by
  intro days
  induction days with
  | nil =>
    intro cts slots hnd hp
    rw [processDays] at hp
    simp only [Option.some.injEq, Prod.mk.injEq] at hp
    obtain ⟨h1, h2⟩ := hp
    subst h1
    subst h2
    exact ⟨by simp, by simp⟩
  | cons dr rest ih =>
    intro cts slots hnd hp
    obtain ⟨day, rng⟩ := dr
    rw [processDays] at hp
    split at hp
    · have hnd2 : (rest.map Prod.fst).Nodup := by
        rw [List.map_cons, List.nodup_cons] at hnd
        exact hnd.2
      obtain ⟨hk, hspec⟩ := ih cts slots hnd2 hp
      exact ⟨fun x hx => by simp [hk x hx], hspec⟩
    · split at hp
      next s1 s2 hsplit =>
        cases h1 : parse_time s1 with
        | none => rw [h1] at hp; exact absurd hp (by simp)
        | some cs =>
        simp only [h1, Option.bind_eq_bind, Option.some_bind] at hp
        cases h2 : parse_time s2 with
        | none => rw [h2] at hp; exact absurd hp (by simp)
        | some ce =>
        simp only [h2, Option.some_bind] at hp
        cases h3 : daySlots cfg em lm day cs ce with
        | none => rw [h3] at hp; exact absurd hp (by simp)
        | some ds =>
        simp only [h3, Option.some_bind] at hp
        cases h4 : processDays cfg em lm rest with
        | none => rw [h4] at hp; exact absurd hp (by simp)
        | some pr =>
        obtain ⟨cts2, slots2⟩ := pr
        simp only [h4, Option.some_bind] at hp
        have hp2 : ((day, cs, ce) :: cts2, ds ++ slots2) = (cts, slots) := by
          simpa using hp
        injection hp2 with e1 e2
        subst e1
        subst e2
        rw [List.map_cons, List.nodup_cons] at hnd
        obtain ⟨hk2, hspec2⟩ := ih cts2 slots2 hnd.2 h4
        constructor
        · intro x hx
          rcases List.mem_cons.mp hx with rfl | hx2
          · simp
          · simp [hk2 x hx2]
        · intro s hs
          rcases List.mem_append.mp hs with hsd | hs2
          · obtain ⟨hsday, hbound⟩ := daySlots_mem_spec hS h3 s hsd
            refine ⟨cs, ce, ?_, hbound⟩
            rw [alGet, if_pos hsday.symm]
          · obtain ⟨cs2, ce2, hget, hbound⟩ := hspec2 s hs2
            refine ⟨cs2, ce2, ?_, hbound⟩
            rw [alGet]
            have hkey : s.1 ∈ rest.map Prod.fst :=
              hk2 (s.1, cs2, ce2) (alGet_mem hget)
            have hsne : ¬ day = s.1 := fun hdeq => hnd.1 (hdeq ▸ hkey)
            rw [if_neg hsne]
            exact hget
      next => exact absurd hp (by simp)

theorem buildPerson_ok {cfg : Config} {em lm : Int}
    {schedule : List (Str × List (Str × Str))} {st st2 : SchedState}
    {row : Str × Str × Str} (hS : 0 < cfg.step)
    (hdn : ∀ entry ∈ schedule, (entry.2.map Prod.fst).Nodup)
    (hok : StateOK st) (hb : buildPerson cfg em lm schedule st row = some st2) :
    StateOK st2 := by
  unfold buildPerson at hb
  cases hsch : alGet row.2.2 schedule with
  | none =>
    rw [hsch] at hb
    dsimp only at hb
    simp only [Option.some.injEq] at hb
    subst hb
    intro name slots hget s hs
    dsimp only at hget
    rw [alGet_alSet] at hget
    by_cases hname : row.1 ++ ' ' :: row.2.1 ++ ' ' :: row.2.2 = name
    · rw [if_pos hname] at hget
      simp only [Option.some.injEq] at hget
      subst hget
      exact absurd hs (by simp)
    · rw [if_neg hname] at hget
      obtain ⟨times, cs, ce, hti, hda, hbo⟩ := hok name slots hget s hs
      refine ⟨times, cs, ce, ?_, hda, hbo⟩
      rw [alGet_alSet, if_neg hname]
      exact hti
  | some days =>
    rw [hsch] at hb
    dsimp only at hb
    cases hpd : processDays cfg em lm days with
    | none => rw [hpd] at hb; exact absurd hb (by simp)
    | some pr =>
    obtain ⟨cts, slots0⟩ := pr
    simp only [hpd, Option.bind_eq_bind, Option.some_bind,
      Option.pure_def, Option.some.injEq] at hb
    subst hb
    have hdnd : (days.map Prod.fst).Nodup := hdn _ (alGet_mem hsch)
    obtain ⟨hk, hspec⟩ := processDays_spec hS days cts slots0 hdnd hpd
    intro name slots hget s hs
    dsimp only at hget
    rw [alGet_alSet] at hget
    by_cases hname : row.1 ++ ' ' :: row.2.1 ++ ' ' :: row.2.2 = name
    · rw [if_pos hname] at hget
      simp only [Option.some.injEq] at hget
      subst hget
      obtain ⟨cs, ce, hda, hbo⟩ := hspec s hs
      refine ⟨cts, cs, ce, ?_, hda, hbo⟩
      dsimp only
      rw [alGet_alSet, if_pos hname]
    · rw [if_neg hname, alGet_alSet, if_neg hname] at hget
      obtain ⟨times, cs, ce, hti, hda, hbo⟩ := hok name slots hget s hs
      refine ⟨times, cs, ce, ?_, hda, hbo⟩
      dsimp only
      rw [alGet_alSet, if_neg hname, alGet_alSet, if_neg hname]
      exact hti

theorem build_StateOK {cfg : Config}
    {sched : List (Str × List (Str × Str))}
    {roster : List (Str × Str × Str)} {st : SchedState} (hS : 0 < cfg.step)
    (hdn : ∀ entry ∈ sched, (entry.2.map Prod.fst).Nodup)
    (hb : build_participant_slots cfg sched roster = some st) :
    StateOK st := by
  unfold build_participant_slots at hb
  cases h1 : parse_time cfg.earliest_hour with
  | none => rw [h1] at hb; exact absurd hb (by simp)
  | some em =>
  simp only [h1, Option.bind_eq_bind, Option.some_bind] at hb
  cases h2 : parse_time cfg.latest_hour with
  | none => rw [h2] at hb; exact absurd hb (by simp)
  | some lm =>
  simp only [h2, Option.some_bind] at hb
  have hfold : ∀ (rows : List (Str × Str × Str)) (st0 : SchedState),
      StateOK st0 →
      rows.foldlM (buildPerson cfg em lm sched) st0 = some st →
      StateOK st := by
    intro rows
    induction rows with
    | nil =>
      intro st0 hok hf
      simp only [List.foldlM_nil, Option.pure_def, Option.some.injEq] at hf
      subst hf
      exact hok
    | cons r rows ih =>
      intro st0 hok hf
      rw [List.foldlM_cons] at hf
      cases hbp : buildPerson cfg em lm sched st0 r with
      | none => rw [hbp] at hf; exact absurd hf (by simp)
      | some st1 =>
        simp only [hbp, Option.bind_eq_bind, Option.some_bind] at hf
        exact ih st1 (buildPerson_ok hS hdn hok hbp) hf
  refine hfold roster ⟨[], []⟩ ?_ hb
  intro name slots hget
  exact absurd hget (by simp [alGet])

theorem build_keys_nodup {cfg : Config}
    {sched : List (Str × List (Str × Str))}
    {roster : List (Str × Str × Str)} {st : SchedState}
    (hb : build_participant_slots cfg sched roster = some st) :
    (st.participant_slots.map Prod.fst).Nodup := by
  unfold build_participant_slots at hb
  cases h1 : parse_time cfg.earliest_hour with
  | none => rw [h1] at hb; exact absurd hb (by simp)
  | some em =>
  simp only [h1, Option.bind_eq_bind, Option.some_bind] at hb
  cases h2 : parse_time cfg.latest_hour with
  | none => rw [h2] at hb; exact absurd hb (by simp)
  | some lm =>
  simp only [h2, Option.some_bind] at hb
  have hperson : ∀ (st0 st1 : SchedState) (r : Str × Str × Str),
      (st0.participant_slots.map Prod.fst).Nodup →
      buildPerson cfg em lm sched st0 r = some st1 →
      (st1.participant_slots.map Prod.fst).Nodup := by
    intro st0 st1 r hnd hbp
    unfold buildPerson at hbp
    cases hsch : alGet r.2.2 sched with
    | none =>
      rw [hsch] at hbp
      dsimp only at hbp
      simp only [Option.some.injEq] at hbp
      subst hbp
      exact alSet_keys_nodup _ _ hnd
    | some days =>
      rw [hsch] at hbp
      dsimp only at hbp
      cases hpd : processDays cfg em lm days with
      | none => rw [hpd] at hbp; exact absurd hbp (by simp)
      | some pr =>
      obtain ⟨cts, slots0⟩ := pr
      simp only [hpd, Option.bind_eq_bind, Option.some_bind,
        Option.pure_def, Option.some.injEq] at hbp
      subst hbp
      exact alSet_keys_nodup _ _ (alSet_keys_nodup _ _ hnd)
  have hfold : ∀ (rows : List (Str × Str × Str)) (st0 : SchedState),
      (st0.participant_slots.map Prod.fst).Nodup →
      rows.foldlM (buildPerson cfg em lm sched) st0 = some st →
      (st.participant_slots.map Prod.fst).Nodup := by
    intro rows
    induction rows with
    | nil =>
      intro st0 hnd hf
      simp only [List.foldlM_nil, Option.pure_def, Option.some.injEq] at hf
      subst hf
      exact hnd
    | cons r rows ih =>
      intro st0 hnd hf
      rw [List.foldlM_cons] at hf
      cases hbp : buildPerson cfg em lm sched st0 r with
      | none => rw [hbp] at hf; exact absurd hf (by simp)
      | some st1 =>
        simp only [hbp, Option.bind_eq_bind, Option.some_bind] at hf
        exact ih st1 (hperson st0 st1 r hnd hbp) hf
  exact hfold roster ⟨[], []⟩ (by simp) hb

/-- `addCand` preserves the pool invariant: every listed person really has
the slot among their candidate slots. -/
theorem addCand_inv {pslots : List (Str × List Slot)}
    {acc : List (Slot × List Str)} {slot : Slot} {p : Str}
    (hinv : ∀ e ∈ acc, ∀ q ∈ e.2, ∃ sl, alGet q pslots = some sl ∧ e.1 ∈ sl)
    (hp : ∃ sl, alGet p pslots = some sl ∧ slot ∈ sl) :
    ∀ e ∈ addCand slot p acc, ∀ q ∈ e.2,
      ∃ sl, alGet q pslots = some sl ∧ e.1 ∈ sl := by
  induction acc with
  | nil =>
    intro e he q hq
    rw [addCand] at he
    rcases List.mem_cons.mp he with rfl | he2
    · rcases List.mem_cons.mp hq with rfl | hq2
      · exact hp
      · exact absurd hq2 (by simp)
    · exact absurd he2 (by simp)
  | cons e0 rest ih =>
    obtain ⟨s0, ps0⟩ := e0
    intro e he q hq
    rw [addCand] at he
    by_cases hs0 : s0 = slot
    · rw [if_pos hs0] at he
      rcases List.mem_cons.mp he with rfl | he2
      · by_cases hpin : p ∈ ps0
        · rw [if_pos hpin] at hq
          exact hinv (s0, ps0) (by simp) q hq
        · rw [if_neg hpin] at hq
          rcases List.mem_append.mp hq with hq2 | hq3
          · exact hinv (s0, ps0) (by simp) q hq2
          · rcases List.mem_cons.mp hq3 with rfl | hq4
            · rw [hs0]
              exact hp
            · exact absurd hq4 (by simp)
      · exact hinv e (List.mem_cons_of_mem _ he2) q hq
    · rw [if_neg hs0] at he
      rcases List.mem_cons.mp he with rfl | he2
      · exact hinv (s0, ps0) (by simp) q hq
      · exact ih (fun e2 he3 q2 hq2 => hinv e2 (List.mem_cons_of_mem _ he3) q2 hq2)
          e he2 q hq

theorem addSlots_inv {pslots : List (Str × List Slot)} {p : Str} :
    ∀ (slots : List Slot) (acc : List (Slot × List Str)),
      (∀ e ∈ acc, ∀ q ∈ e.2, ∃ sl, alGet q pslots = some sl ∧ e.1 ∈ sl) →
      (∀ s ∈ slots, ∃ sl, alGet p pslots = some sl ∧ s ∈ sl) →
      ∀ e ∈ addSlots p slots acc, ∀ q ∈ e.2,
        ∃ sl, alGet q pslots = some sl ∧ e.1 ∈ sl := by
  intro slots
  induction slots with
  | nil => intro acc hinv hall; exact hinv
  | cons s ss ih =>
    intro acc hinv hall
    rw [addSlots]
    exact ih _ (addCand_inv hinv (hall s (by simp)))
      (fun s2 hs2 => hall s2 (List.mem_cons_of_mem _ hs2))

theorem stcAux_inv {pslots : List (Str × List Slot)} :
    ∀ (entries : List (Str × List Slot)) (acc : List (Slot × List Str)),
      (∀ ent ∈ entries, ∀ s ∈ ent.2, ∃ sl, alGet ent.1 pslots = some sl ∧ s ∈ sl) →
      (∀ e ∈ acc, ∀ q ∈ e.2, ∃ sl, alGet q pslots = some sl ∧ e.1 ∈ sl) →
      ∀ e ∈ stcAux entries acc, ∀ q ∈ e.2,
        ∃ sl, alGet q pslots = some sl ∧ e.1 ∈ sl := by
  intro entries
  induction entries with
  | nil => intro acc hents hinv; exact hinv
  | cons ent rest ih =>
    obtain ⟨pn, slots⟩ := ent
    intro acc hents hinv
    rw [stcAux]
    exact ih _ (fun e2 he2 => hents e2 (List.mem_cons_of_mem _ he2))
      (addSlots_inv slots acc hinv (hents (pn, slots) (by simp)))

/-- Every person in a candidate set of the pool has that slot in their
own candidate-slot list (keys of `participant_slots` are unique). -/
theorem cand_mem_spec {pslots : List (Str × List Slot)}
    (hnd : (pslots.map Prod.fst).Nodup) :
    ∀ e ∈ slot_to_candidates pslots, ∀ p ∈ e.2,
      ∃ sl, alGet p pslots = some sl ∧ e.1 ∈ sl := by
  refine stcAux_inv pslots [] ?_ ?_
  · intro ent hent s hs
    exact ⟨ent.2, alGet_of_mem_nodup (by simpa using hent) hnd, hs⟩
  · intro e he
    exact absurd he (by simp)

/-- If every eligible pair yields a `(wait, tag)` pair, building the edge
lists never raises. -/
theorem poolEdges_isSome_of_pairs {st : SchedState}
    {pool : List (Slot × List Str)}
    (h : ∀ e ∈ pool, ∀ p ∈ e.2, ∃ w t,
      compute_wait_minutes st p e.1 = WaitRet.pair w t) :
    (poolEdges st pool).isSome = true := by
  induction pool with
  | nil => rfl
  | cons e rest ih =>
    have hcand : ∀ (cand : List Str),
        (∀ p ∈ cand, ∃ w t, compute_wait_minutes st p e.1 = WaitRet.pair w t) →
        (candEdges st e.1 cand).isSome = true := by
      intro cand
      induction cand with
      | nil => intro hc; rfl
      | cons p ps ihc =>
        intro hc
        obtain ⟨w, t, hw⟩ := hc p (by simp)
        rw [candEdges, hw]
        cases hrest : candEdges st e.1 ps with
        | none =>
          have := ihc (fun q hq => hc q (List.mem_cons_of_mem _ hq))
          rw [hrest] at this
          simp at this
        | some l => simp
    rw [poolEdges]
    have h1 := hcand e.2 (fun p hp => h e (by simp) p hp)
    cases hce : candEdges st e.1 e.2 with
    | none => rw [hce] at h1; simp at h1
    | some l1 =>
      have h2 := ih (fun e2 he2 p hp => h e2 (List.mem_cons_of_mem _ he2) p hp)
      cases hpe : poolEdges st rest with
      | none => rw [hpe] at h2; simp at h2
      | some l2 => simp [hce, hpe]

/-- C9 (amended): in a state built by `build_participant_slots` (with the
dict-unique day keys of each schedule row, and a positive step so slot
generation terminates), every (person, slot) pair whose wait the engine
evaluates — person in the eligible set of a candidate slot — has a
recorded commitment on the slot's day that the slot does not overlap;
`compute_wait_minutes` returns a `(wait, tag)` pair with tag `before` or
`after` (never `conflict`), the bare-int return is unreachable there and
tuple unpacking never fails, so building the flow networks never raises.
(The wait itself can still reach the `10^6` sentinel when the commitment
is that far away — see the counterexample.) -/
theorem c9_eligible_pairs (cfg : Config)
    (sched : List (Str × List (Str × Str)))
    (roster : List (Str × Str × Str)) (st : SchedState)
    (hS : 0 < cfg.step)
    (hdn : ∀ entry ∈ sched, (entry.2.map Prod.fst).Nodup)
    (hb : build_participant_slots cfg sched roster = some st) :
    (∀ e ∈ candidateSlots st.participant_slots cfg.min_size, ∀ p ∈ e.2,
      ∃ times cs ce w tag,
        alGet p st.class_times = some times ∧
        alGet e.1.1 times = some (cs, ce) ∧
        (e.1.2.2 ≤ cs ∨ ce ≤ e.1.2.1) ∧
        compute_wait_minutes st p e.1 = .pair w tag ∧
        tag ≠ WTag.conflict) ∧
    (poolEdges st (candidateSlots st.participant_slots cfg.min_size)).isSome
      = true := by
  have hok := build_StateOK hS hdn hb
  have hnd := build_keys_nodup hb
  have hmain : ∀ e ∈ candidateSlots st.participant_slots cfg.min_size,
      ∀ p ∈ e.2, ∃ times cs ce w tag,
        alGet p st.class_times = some times ∧
        alGet e.1.1 times = some (cs, ce) ∧
        (e.1.2.2 ≤ cs ∨ ce ≤ e.1.2.1) ∧
        compute_wait_minutes st p e.1 = .pair w tag ∧
        tag ≠ WTag.conflict := by
    intro e he p hp
    have he2 : e ∈ slot_to_candidates st.participant_slots :=
      (List.mem_filter.mp he).1
    obtain ⟨sl, hsl, hmem⟩ := cand_mem_spec hnd e he2 p hp
    obtain ⟨times, cs, ce, h1, h2, h3⟩ := hok p sl hsl e.1 hmem
    have hcw : compute_wait_minutes st p e.1 =
        (if e.1.2.2 ≤ cs then WaitRet.pair (cs - e.1.2.2) .before
         else if ce ≤ e.1.2.1 then WaitRet.pair (e.1.2.1 - ce) .after
         else WaitRet.pair LARGE_PENALTY .conflict) := by
      unfold compute_wait_minutes
      rw [h1]
      dsimp only
      rw [h2]
    by_cases hbef : e.1.2.2 ≤ cs
    · exact ⟨times, cs, ce, cs - e.1.2.2, .before, h1, h2, h3,
        by rw [hcw, if_pos hbef], by decide⟩
    · have haft : ce ≤ e.1.2.1 := by
        rcases h3 with h | h
        · exact absurd h hbef
        · exact h
      exact ⟨times, cs, ce, e.1.2.1 - ce, .after, h1, h2, h3,
        by rw [hcw, if_neg hbef, if_pos haft], by decide⟩
  refine ⟨hmain, poolEdges_isSome_of_pairs ?_⟩
  intro e he p hp
  obtain ⟨times, cs, ce, w, tag, _, _, _, hw, _⟩ := hmain e he p hp
  exact ⟨w, tag, hw⟩

/-- C9 counterexample: with a commitment more than `10^6` minutes after
the day window (`parse_time` accepts any hour field) and a large step,
`build_participant_slots` produces an eligible pair whose wait is
`1000040 ≥ 10^6`: the claim that every evaluated pair's wait is strictly
below the sentinel is false — the gap itself can reach the sentinel even
with no conflict. -/
theorem c9_sentinel_wait_counterexample :
    build_participant_slots c9Cfg c9Sched c9Roster = some c9State ∧
    ((['D'], (0 : Int), (60 : Int)), ["A B 1A".data]) ∈
      candidateSlots c9State.participant_slots c9Cfg.min_size ∧
    "A B 1A".data ∈ ["A B 1A".data] ∧
    compute_wait_minutes c9State "A B 1A".data (['D'], 0, 60) =
      .pair 1000040 .before ∧
    ¬ (1000040 : Int) < LARGE_PENALTY := by
  decide

theorem c9_eligible_pairs_witness :
    ∃ times cs ce w tag,
      alGet "A B 1A".data c9wState.class_times = some times ∧
      alGet ['D'] times = some (cs, ce) ∧
      ((540 : Int) ≤ cs ∨ ce ≤ (480 : Int)) ∧
      compute_wait_minutes c9wState "A B 1A".data (['D'], 480, 540) =
        .pair w tag ∧
      tag ≠ WTag.conflict :=
  (c9_eligible_pairs c9wCfg c9wSched c9Roster c9wState (by decide)
      (by decide) (by decide)).1
    ((['D'], 480, 540), ["A B 1A".data]) (by decide) "A B 1A".data (by decide)

/-- Completeness of the `intLists` search space: any list pointwise within
the bounds is one of its members. -/
theorem mem_intLists {fl bs : List Int}
    (h : List.Forall₂ (fun x b => 0 ≤ x ∧ x ≤ b) fl bs) : fl ∈ intLists bs := by
  induction h with
  | nil => simp [intLists]
  | @cons x b fl2 bs2 hxb _ ih =>
    obtain ⟨hx0, hxb2⟩ := hxb
    unfold intLists
    rw [List.mem_flatMap]
    refine ⟨x, ?_, ?_⟩
    · rw [List.mem_map]
      refine ⟨x.toNat, ?_, ?_⟩
      · rw [List.mem_range]
        omega
      · exact Int.toNat_of_nonneg hx0
    · rw [List.mem_map]
      exact ⟨fl2, ih, rfl⟩

/-- The per-arc bounds of `nxFeasibleCaps`, read off the zipped list, as a
`Forall₂` against the capacity list. -/
theorem zipBounds : ∀ (g : List Arc) (fl : List Int),
    fl.length = g.length →
    (∀ a ∈ g.zip fl, (decide (0 ≤ a.2) && decide (a.2 ≤ a.1.cap)) = true) →
    List.Forall₂ (fun x b => 0 ≤ x ∧ x ≤ b) fl (g.map Arc.cap)
  | [], [], _, _ => List.Forall₂.nil
  | [], x :: fl, hlen, _ => by simp at hlen
  | a :: g, [], hlen, _ => by simp at hlen
  | a :: g, x :: fl, hlen, hb => by
    have hx := hb (a, x) (by simp [List.zip_cons_cons])
    rw [Bool.and_eq_true, decide_eq_true_eq, decide_eq_true_eq] at hx
    refine List.Forall₂.cons hx ?_
    refine zipBounds g fl ?_ ?_
    · simpa using hlen
    · intro y hy
      exact hb y (by simp [List.zip_cons_cons, hy])

/-- Every capacity-respecting flow assignment lies in the search space that
`nxMaxFlowVal` and the optimality clauses quantify over, so those finite
quantifications really range over all integral flows of the network. -/
theorem nxFeasibleCaps_mem_intLists {g : List Arc} {fl : List Int}
    (h : nxFeasibleCaps g fl = true) : fl ∈ intLists (g.map Arc.cap) := by
  unfold nxFeasibleCaps at h
  rw [Bool.and_eq_true, Bool.and_eq_true, decide_eq_true_eq,
    List.all_eq_true] at h
  exact mem_intLists (zipBounds g fl h.1.1 h.1.2)

/-- `foldl max` dominates its initial value. -/
theorem foldl_max_init_le : ∀ (l : List Int) (a : Int), a ≤ l.foldl max a
  | [], a => le_refl a
  | x :: l, a => le_trans (le_max_left a x) (foldl_max_init_le l (max a x))

/-- `foldl max` dominates every member of the list. -/
theorem mem_le_foldl_max : ∀ (l : List Int) (a x : Int), x ∈ l → x ≤ l.foldl max a
  | y :: l, a, x, h => by
    rcases List.mem_cons.mp h with h1 | h2
    · subst h1
      exact le_trans (le_max_right a x) (foldl_max_init_le l (max a x))
    · exact mem_le_foldl_max l (max a y) x h2

/-- `nxMaxFlowVal` dominates the value of every integral
capacity-respecting flow: it is the true maximum-flow value of the
network. -/
theorem nxValue_le_nxMaxFlowVal {g : List Arc} {fl : List Int}
    (h : nxFeasibleCaps g fl = true) : nxValue g fl ≤ nxMaxFlowVal g := by
  have hm : nxValue g fl ∈
      ((intLists (g.map Arc.cap)).filter (nxFeasibleCaps g)).map (nxValue g) :=
    List.mem_map_of_mem _ (List.mem_filter.mpr ⟨nxFeasibleCaps_mem_intLists h, h⟩)
  exact mem_le_foldl_max _ 0 _ hm

set_option maxRecDepth 40000 in
/-- Enumerated form of the flow-uniqueness fact on the collision network:
every member of the search space that meets the demands equals `cxFlow`. -/
theorem cx_all_eq : ((intLists (cxG.map Arc.cap)).all
    (fun fl => !(nxFeasible cxG 3 fl) || decide (fl = cxFlow))) = true := by decide

/-- On the collision network every integral flow meeting the demands of
value 3 is `cxFlow` (all ten arcs saturated): a correct min-cost-flow
routine has no other output to return. -/
theorem cx_flow_unique {fl : List Int} (h : nxFeasible cxG 3 fl = true) :
    fl = cxFlow := by
  have hc : nxFeasibleCaps cxG fl = true := by
    unfold nxFeasible at h
    rw [Bool.and_eq_true, Bool.and_eq_true] at h
    exact h.1.1
  have hm : fl ∈ intLists (cxG.map Arc.cap) := nxFeasibleCaps_mem_intLists hc
  have hall := cx_all_eq
  rw [List.all_eq_true] at hall
  have h2 := hall fl hm
  rw [h, Bool.not_true, Bool.false_or, decide_eq_true_eq] at h2
  exact h2

set_option maxRecDepth 40000 in
/-- `build_participant_slots` really produces `cxState` from the collision
schedule and roster. -/
theorem cx_build : build_participant_slots cxCfg cxSched cxRoster = some cxState := by
  decide

set_option maxRecDepth 40000 in
/-- The initial candidate pool of the collision scenario. -/
theorem cx_pool : candidateSlots cxState.participant_slots cxCfg.min_size = cxPool := by
  decide

set_option maxRecDepth 40000 in
/-- The first iteration's string-keyed network is `cxG`; in particular the
participant `cxStar` and the slot `cxSlotM` produce one node. -/
theorem cx_graph : nxGraph cxState cxCfg cxPool = some cxG := by decide

set_option maxRecDepth 40000 in
/-- The max-flow value the program computes on the merged network. -/
theorem cx_maxflow : nxMaxFlowVal cxG = 3 := by decide

set_option maxRecDepth 40000 in
/-- `cxFlow` meets the full `min_cost_flow` contract on the collision
network: feasible for the demands and of minimal cost. -/
theorem cx_mcfok : nxMcfOK cxG 3 cxFlow = true := by decide

set_option maxRecDepth 40000 in
/-- Any solver whose output at the collision network meets the
`min_cost_flow` contract drives `assign_groups` to return `cxResult`: by
`cx_flow_unique` the contract pins the flow to `cxFlow`, and the run is
then a closed computation. -/
theorem cx_run_any (mcfO : List Arc → Int → List Int)
    (h : nxMcfOK cxG 3 (mcfO cxG 3) = true) :
    assign_groupsNx cxState cxCfg mcfO = .ok cxResult := by
  have hfl : mcfO cxG 3 = cxFlow := by
    refine cx_flow_unique ?_
    unfold nxMcfOK at h
    rw [Bool.and_eq_true] at h
    exact h.1
  have hstep : nxStepFn cxState cxCfg mcfO cxPool = .done cxResult .solved := by
    unfold nxStepFn
    rw [cx_graph]
    dsimp only
    rw [cx_maxflow, hfl]
    decide
  unfold assign_groupsNx assign_groupsNxT
  rw [cx_pool]
  dsimp only
  rw [show cxPool.isEmpty = false from rfl]
  simp only [Bool.false_eq_true, if_false]
  rw [show cxPool.length + 1 = 4 from rfl]
  unfold nxLoopAux
  rw [hstep]

/-- C1: the claimed capacity invariant `min_size ≤ |members| ≤ max_size`
fails on the program.  All nodes of the real networks share one string
namespace, so the participant named `"Mon X 13:15-14:15"` and the
candidate slot `("Mon X", 795, 855)` are a single merged node; on the
reachable input `cxSched`/`cxRoster` (window 13:00–14:15, `min_size =
max_size = 1`) the max-flow value is 3, exactly one integral flow meets
the min-cost-flow demands, every contract-satisfying solver therefore
yields the same run, and `assign_groups` returns the merged slot with
2 > max_size members: the slot-to-sink capacity does not bound the member
count, because the surplus leaves the merged node through its person-role
arcs. -/
theorem c1_merged_capacity_violation :
    build_participant_slots cxCfg cxSched cxRoster = some cxState ∧
    candidateSlots cxState.participant_slots cxCfg.min_size = cxPool ∧
    nxGraph cxState cxCfg cxPool = some cxG ∧
    nxMaxFlowVal cxG = 3 ∧
    nxMcfOK cxG 3 cxFlow = true ∧
    (∀ fl, nxFeasible cxG 3 fl = true → fl = cxFlow) ∧
    (∀ mcfO, nxMcfOK cxG 3 (mcfO cxG 3) = true →
      assign_groupsNx cxState cxCfg mcfO = .ok cxResult) ∧
    (slot_to_str cxSlotM, [cxP2, cxP3]) ∈ cxResult ∧
    ¬ ((([cxP2, cxP3] : List Str).length : Int) ≤ cxCfg.max_size) :=
  ⟨cx_build, cx_pool, cx_graph, cx_maxflow, cx_mcfok,
   fun _ h => cx_flow_unique h, cx_run_any,
   by decide, by decide⟩

/-- C2: the claimed single-assignment invariant fails on the program.  In
the same collision run the merged node's `flow_dict` row contains its
slot-role arcs, so the extraction appends the collided participant to the
member lists of `"T"`, `"Tue 13:15-14:15"` and `"Wed 13:15-14:15"`: one
person identifier in three member lists of a single returned mapping —
the capacity-1 source arc does not bound what the merged node's row
reports. -/
theorem c2_merged_single_assignment_violation :
    build_participant_slots cxCfg cxSched cxRoster = some cxState ∧
    candidateSlots cxState.participant_slots cxCfg.min_size = cxPool ∧
    nxGraph cxState cxCfg cxPool = some cxG ∧
    nxMaxFlowVal cxG = 3 ∧
    nxMcfOK cxG 3 cxFlow = true ∧
    (∀ fl, nxFeasible cxG 3 fl = true → fl = cxFlow) ∧
    (∀ mcfO, nxMcfOK cxG 3 (mcfO cxG 3) = true →
      assign_groupsNx cxState cxCfg mcfO = .ok cxResult) ∧
    ¬ ((cxResult.filter (fun e => decide (cxStar ∈ e.2))).length ≤ 1) :=
  ⟨cx_build, cx_pool, cx_graph, cx_maxflow, cx_mcfok,
   fun _ h => cx_flow_unique h, cx_run_any, by decide⟩

/-- C3: the claimed no-conflict invariant fails on the program.  In the
same collision run the returned mapping pairs the collided participant
with the key `"T"` — the sink, which parses as no slot and matches no
candidate slot's string — so not every returned (person, slot) pair is a
non-conflicting candidate slot; the pair reaches the output because the
extraction walks `flow_dict[p].items()` of the merged node, which includes
its slot-role arc to the sink. -/
theorem c3_merged_sink_key_violation :
    build_participant_slots cxCfg cxSched cxRoster = some cxState ∧
    candidateSlots cxState.participant_slots cxCfg.min_size = cxPool ∧
    nxGraph cxState cxCfg cxPool = some cxG ∧
    nxMaxFlowVal cxG = 3 ∧
    nxMcfOK cxG 3 cxFlow = true ∧
    (∀ fl, nxFeasible cxG 3 fl = true → fl = cxFlow) ∧
    (∀ mcfO, nxMcfOK cxG 3 (mcfO cxG 3) = true →
      assign_groupsNx cxState cxCfg mcfO = .ok cxResult) ∧
    (sinkN, [cxStar]) ∈ cxResult ∧
    str_to_slot sinkN = none ∧
    (∀ e ∈ cxPool, ¬ slot_to_str e.1 = sinkN) :=
  ⟨cx_build, cx_pool, cx_graph, cx_maxflow, cx_mcfok,
   fun _ h => cx_flow_unique h, cx_run_any,
   by decide, by decide, by decide⟩

end PlanMaker
